import Mathlib

/-!
A verification development for a phase-vocoder time-stretch engine:
a radix-2 FFT kernel, spectral analysis/resynthesis, and the cyclic
shift utilities they depend on.

The definitions are shallow embeddings of the JavaScript source:
typed arrays become lists (or index functions for the FFT work
buffers), in-place loops become folds or structural recursion,
floating-point numbers become real numbers, and fallible operations
return `Except`.  Where the runtime semantics of a call site matters
(an absent object field reads as `undefined`), the embedding makes the
absence explicit with `Option` and a NaN-aware number type.
-/

namespace Voc

/-- The runtime error classes the engine can produce: `RangeError`
from an invalid array length, the power-of-two construction check,
the missing-frames check in synthesis, and the real/imag buffer
length checks in the transform. -/
inductive JsErr where
  | rangeError : JsErr
  | sizeNotPow2 : JsErr
  | framesRequired : JsErr
  | lengthMismatch : JsErr
deriving DecidableEq, Repr

/-! ## Cyclic rotation (`reverse`, `rotate`, `fftshift`, `ifftshift`) -/

/-- Swap the entries at positions `i` and `j`: the three-assignment
exchange through `tmp` in the source's `reverse`.  Out-of-range
positions leave the list unchanged (never exercised by the callers,
which keep both indices inside the buffer). -/
def listSwap {α : Type} (l : List α) (i j : ℕ) : List α :=
  match l.get? i, l.get? j with
  | some a, some b => (l.set i b).set j a
  | _, _ => l

/-- `reverse (src, from, to)`: swap inward from both ends of the
half-open index range `[from, to)`.  The source loop pre-increments
`from` and pre-decrements `to` before each comparison, so one step
swaps `from` with `to - 1` and recurses on the shrunken range. -/
def revRange {α : Type} (l : List α) (f t : ℕ) : List α :=
  if h : f + 1 < t then revRange (listSwap l f (t - 1)) (f + 1) (t - 1) else l
termination_by t - f
decreasing_by omega

/-- `rotate (src, n)`: rotation by triple reversal, with the buffer
length captured once up front. -/
def rotateJs {α : Type} (l : List α) (n : ℕ) : List α :=
  revRange (revRange (revRange l 0 l.length) 0 n) n l.length

/-- `fftshift`: cyclic shift by `⌊len / 2⌋` for zero-phase windowing. -/
def fftshift {α : Type} (l : List α) : List α :=
  rotateJs l (l.length / 2)

/-- `ifftshift`: the inverse cyclic shift, by `⌊(len + 1) / 2⌋`. -/
def ifftshift {α : Type} (l : List α) : List α :=
  rotateJs l ((l.length + 1) / 2)

/-! ## Power-of-two check and the transform tables -/

/-- `isPow2 (v)`: the bit-twiddling test `!(v & (v - 1)) && (!!v)`.
Sizes are modeled as naturals (for the sizes a JS engine can actually
allocate, the `ToInt32` coercion inside `&` is the identity, so
`Nat.land` together with `Nat` truncated subtraction at `v = 0` is
faithful). -/
def isPow2 (v : ℕ) : Bool := (Nat.land v (v - 1) == 0) && (v != 0)

/-! ### Bit-reversal table -/

/-- One pass of the bit-reversal table construction:
`for (i < limit) rt[i + limit] = rt[i] + bit`. -/
def revInner (limit bit : ℕ) (rt : ℕ → ℕ) : ℕ → ℕ :=
  (List.range limit).foldl (fun r i => Function.update r (i + limit) (r i + bit)) rt

/-- The `while (limit < size)` doubling loop of the table
construction.  `fuel` bounds the number of doublings; the callers pass
`size`, which is always enough since `limit` doubles from 1. -/
def revLoop (fuel limit bit size : ℕ) (rt : ℕ → ℕ) : ℕ → ℕ :=
  match fuel with
  | 0 => rt
  | f + 1 =>
    if limit < size then revLoop f (2 * limit) (bit / 2) size (revInner limit bit rt)
    else rt

/-- The finished bit-reversal permutation, as a function (the
`Uint32Array` starts zero-filled). -/
def revTableFun (size : ℕ) : ℕ → ℕ :=
  revLoop size 1 (size / 2) size (fun _ => 0)

/-- The `reverseTable` array of `tables (size)`. -/
def reverseTableList (size : ℕ) : List ℕ :=
  (List.range size).map (revTableFun size)

/-- The cached per-size state built by `tables (size)`. -/
structure Tables where
  size : ℕ
  reverseTable : List ℕ
  sinTable : List ℝ
  cosTable : List ℝ

/-- The table contents for a given size.  The index-0 twiddle entries
divide by zero (`sin(-π/0)`, a NaN in JS, 0 in this real-number
model); `process` never reads index 0 because `halfSize` starts at 1. -/
noncomputable def theTables (size : ℕ) : Tables :=
  { size := size
    reverseTable := reverseTableList size
    sinTable := (List.range size).map (fun i : ℕ => Real.sin (-Real.pi / i))
    cosTable := (List.range size).map (fun i : ℕ => Real.cos (-Real.pi / i)) }

/-- `tables (size)`: throws unless `size` is a power of two, then
builds the cached tables. -/
noncomputable def tablesJs (size : ℕ) : Except JsErr Tables :=
  if isPow2 size then .ok (theTables size) else .error .sizeNotPow2

/-- `fft (size)`: constructing the transform just builds the cached
tables; `forward` and `inverse` are closures over them. -/
noncomputable def fftJs (size : ℕ) : Except JsErr Tables := tablesJs size

/-! ## Array and spectrum primitives -/

/-- `zeros (size)`: a zero-filled buffer. -/
def zeros (n : ℕ) : List ℝ := List.replicate n 0

/-- `fill (N, fn)`: build an array from a generator `fn (n, N)`. -/
def fill (N : ℕ) (fn : ℕ → ℕ → ℝ) : List ℝ :=
  (List.range N).map (fun n => fn n N)

/-- `mult (N, a, b, out)` on equal-length buffers: elementwise
product of the first `N` samples (the callers always pass `N` equal
to both buffer lengths). -/
def mult (N : ℕ) (a b : List ℝ) : List ℝ :=
  (List.range N).map (fun i => a.getD i 0 * b.getD i 0)

/-- `bandWidth (size, sampleRate) = 2 / size * sampleRate / 2`. -/
noncomputable def bandWidth (size sampleRate : ℝ) : ℝ :=
  2 / size * sampleRate / 2

/-- `bandFrequency (index, size, sampleRate)`: the center frequency of
a bin, `width * index + width / 2`. -/
noncomputable def bandFrequency (index : ℕ) (size sampleRate : ℝ) : ℝ :=
  bandWidth size sampleRate * index + bandWidth size sampleRate / 2

/-- A frequency-domain frame in rectangular form. -/
structure CFrame where
  real : List ℝ
  imag : List ℝ

/-- A frequency-domain frame in polar form. -/
structure PolarFrame where
  magnitudes : List ℝ
  phases : List ℝ

/-- JS `Math.atan2 (y, x)`, with range `(-π, π]`. -/
noncomputable def atan2 (y x : ℝ) : ℝ := Complex.arg ⟨x, y⟩

/-- `polar (result)` without a caller-supplied output (the only way
`analysis` calls it): fresh magnitude/phase buffers of the input
length, `magnitudes[i] = sqrt(re² + im²)`, `phases[i] = atan2(im, re)`. -/
noncomputable def polar (fd : CFrame) : PolarFrame :=
  { magnitudes := (List.range fd.real.length).map
      (fun i => Real.sqrt (fd.real.getD i 0 * fd.real.getD i 0 +
        fd.imag.getD i 0 * fd.imag.getD i 0))
    phases := (List.range fd.real.length).map
      (fun i => atan2 (fd.imag.getD i 0) (fd.real.getD i 0)) }

/-- `rectangular (spectrum, complex)` into a reused output buffer of
length `size`: indices below `min (magnitudes.length) size` get
`mag * cos phase` / `mag * sin phase`, the rest keep the buffer's
previous contents. -/
noncomputable def rectangular (sp : PolarFrame) (prev : CFrame) (size : ℕ) : CFrame :=
  { real := (List.range size).map (fun i =>
      if i < min sp.magnitudes.length size then
        sp.magnitudes.getD i 0 * Real.cos (sp.phases.getD i 0)
      else prev.real.getD i 0)
    imag := (List.range size).map (fun i =>
      if i < min sp.magnitudes.length size then
        sp.magnitudes.getD i 0 * Real.sin (sp.phases.getD i 0)
      else prev.imag.getD i 0) }

/-! ## The transform kernel (`process`)

The two output `Float32Array`s are modeled as one complex-valued index
function (the source manipulates `real[i]`/`imag[i]` in lockstep: a
butterfly's `(tr, ti)` pair is exactly the complex product
`currentPhaseShift * a[off]`, and the `currentPhaseShift` update is
exactly a complex multiplication by the stage step). -/

/-- The input permutation loop `real[i] = rs[reverseTable[i]];
imag[i] = dir * is[reverseTable[i]]` over a freshly zeroed output. -/
noncomputable def loadPerm (dir : ℤ) (rt : List ℕ) (size : ℕ) (rs ims : List ℝ) : ℕ → ℂ :=
  (List.range size).foldl
    (fun a i => Function.update a i
      ⟨rs.getD (rt.getD i 0) 0, (dir : ℝ) * ims.getD (rt.getD i 0) 0⟩)
    (fun _ => 0)

/-- One butterfly: with `t = w * a (i + h)` computed first, the source
writes `a[i+h] = a[i] - t` and then `a[i] = a[i] + t`; both
right-hand sides use pre-write values, and the two cells are distinct
because `h ≥ 1` whenever the stage loop runs. -/
noncomputable def bflyAt (w : ℂ) (h i : ℕ) (a : ℕ → ℂ) : ℕ → ℂ :=
  Function.update (Function.update a (i + h) (a i - w * a (i + h))) i
    (a i + w * a (i + h))

/-- The `while (i < size) { ...; i += halfSize << 1 }` loop of one
`fftStep` residue class.  `fuel` bounds the iteration count; callers
pass `size`, enough because the index advances by `2 * h ≥ 2`. -/
noncomputable def innerWhile (fuel : ℕ) (w : ℂ) (h size i : ℕ) (a : ℕ → ℂ) : ℕ → ℂ :=
  match fuel with
  | 0 => a
  | f + 1 =>
    if i < size then innerWhile f w h size (i + 2 * h) (bflyAt w h i a) else a

/-- The `for (fftStep < halfSize)` loop: run the inner while loop for
each residue with the accumulated `currentPhaseShift` (which starts at
1 and is multiplied by the stage step after each residue). -/
noncomputable def stageLoop (h size : ℕ) (stepW : ℂ) (a : ℕ → ℂ) : ℕ → ℂ :=
  ((List.range h).foldl
    (fun (p : (ℕ → ℂ) × ℂ) k => (innerWhile size p.2 h size k p.1, p.2 * stepW))
    (a, 1)).1

/-- The `while (halfSize < size) { ...; halfSize <<= 1 }` stage loop;
the per-stage step is `cosTable[halfSize] + i · sinTable[halfSize]`. -/
noncomputable def stagesLoop (fuel h size : ℕ) (cosT sinT : List ℝ) (a : ℕ → ℂ) : ℕ → ℂ :=
  match fuel with
  | 0 => a
  | f + 1 =>
    if h < size then
      stagesLoop f (2 * h) size cosT sinT
        (stageLoop h size ⟨cosT.getD h 0, sinT.getD h 0⟩ a)
    else a

/-- The pure payload of `process` after the length checks: permute the
input in (conjugating when `dir = -1`), run the butterfly stages, and
normalize by `1 / size` on the inverse direction, materializing the
output buffers. -/
noncomputable def processRun (dir : ℤ) (t : Tables) (inp : CFrame) : CFrame :=
  let a := stagesLoop t.size 1 t.size t.cosTable t.sinTable
    (loadPerm dir t.reverseTable t.size inp.real inp.imag)
  let b := if dir = -1 then fun j => a j / (t.size : ℂ) else a
  { real := (List.range t.size).map (fun i => (b i).re)
    imag := (List.range t.size).map (fun i => (b i).im) }

/-- `process (dir, tables, input, output)` with a complex input frame
and no caller-supplied output: the synchronous buffer length checks,
then the pure transform. -/
noncomputable def processJs (dir : ℤ) (t : Tables) (inp : CFrame) : Except JsErr CFrame :=
  if inp.real.length ≠ t.size then .error .lengthMismatch
  else if inp.imag.length ≠ t.size then .error .lengthMismatch
  else .ok (processRun dir t inp)

/-- `forward` of the transform object returned by `fft (size)`. -/
noncomputable def forwardJs (t : Tables) (inp : CFrame) : Except JsErr CFrame :=
  processJs 1 t inp

/-- `inverse` of the transform object returned by `fft (size)`. -/
noncomputable def inverseJs (t : Tables) (inp : CFrame) : Except JsErr CFrame :=
  processJs (-1) t inp

/-- `forward` on a bare real signal: `process` wraps it with a fresh
zero imaginary buffer (`if (!input.real) input = { real: input,
imag: new Float32Array(size) }`). -/
noncomputable def forwardSig (t : Tables) (x : List ℝ) : Except JsErr CFrame :=
  processJs 1 t ⟨x, zeros t.size⟩

/-! ## Analysis -/

/-- The number of analysis frames,
`Math.floor((signal.length - size) / hop)` (a rational-division floor;
the claims only exercise `hop > 0`). -/
def numFramesJs (len size hop : ℕ) : ℤ :=
  Int.floor ((((len : ℤ) - (size : ℤ) : ℤ) : ℚ) / (hop : ℚ))

/-- One analysis frame: copy `signal[i*hop .. i*hop+size)` into the
zeroed scratch buffer, window it, cyclic-shift it, transform it, and
convert to polar form. -/
noncomputable def analysisFrame (signal : List ℝ) (size hop : ℕ)
    (window : List ℝ) (t : Tables) (i : ℕ) : PolarFrame :=
  let frame := (List.range size).map (fun j => signal.getD (i * hop + j) 0)
  let windowed := mult size window frame
  let shifted := fftshift windowed
  polar (processRun 1 t ⟨shifted, zeros size⟩)

/-- The body of `analysis` once the transform exists: allocating
`new Array(numFrames)` throws a `RangeError` when `numFrames` is
negative (which happens whenever `signal.length < size`); otherwise
the frames are produced in order.  The per-frame `forward` calls
cannot fail their length checks (all buffers are built at length
`size`), so they appear as the pure `processRun`. -/
noncomputable def analysisCore (signal : List ℝ) (size hop : ℕ)
    (w : ℕ → ℕ → ℝ) (t : Tables) : Except JsErr (List PolarFrame) :=
  let numFrames := numFramesJs signal.length size hop
  if numFrames < 0 then .error .rangeError
  else
    let window := fill size w
    .ok ((List.range numFrames.toNat).map (analysisFrame signal size hop window t))

/-- `analysis (signal, { size, hop, windowFn })` with the default
transform `ft = fft(size)` (default parameters are evaluated before
the body, so a bad size fails there first).  The default `windowFn`
is the constant-1 window `() => 1`. -/
noncomputable def analysisJs (signal : List ℝ) (size hop : ℕ)
    (w : ℕ → ℕ → ℝ) : Except JsErr (List PolarFrame) :=
  (tablesJs size).bind (fun t => analysisCore signal size hop w t)

/-- The frame list carried by a successful analysis result. -/
def framesOf (e : Except JsErr (List PolarFrame)) : List PolarFrame :=
  match e with
  | .ok fs => fs
  | .error _ => []

/-- The 16-sample ramp test signal `[0, 1, ..., 15]` (generalized to
any length). -/
def rampSignal (n : ℕ) : List ℝ := (List.range n).map (fun i : ℕ => (i : ℝ))

/-! ## The heap view of `process` (aliasing) -/

/-- A heap of sample buffers addressed by id. -/
structure Heap where
  bufs : ℕ → List ℝ

/-- `process` observed at the buffer level: the input pair is read,
and the computed output pair is stored back only into the output ids
(every write in the source body targets `output.real`/`output.imag`).
Caller-supplied output buffers are taken to be length-conforming; the
claims do not exercise partial writes into shorter buffers. -/
noncomputable def processHeap (dir : ℤ) (t : Tables)
    (inR inI outR outI : ℕ) (hp : Heap) : Heap :=
  let res := processRun dir t ⟨hp.bufs inR, hp.bufs inI⟩
  ⟨Function.update (Function.update hp.bufs outR res.real) outI res.imag⟩

/-! ## JS numbers with NaN

Some call sites in the vocoder read absent object fields, which in JS
produce `undefined` and then NaN under arithmetic.  `JNum` models a JS
float as either a real value or NaN; NaN is absorbing for every
operation used.  (Infinities are not modeled: no modeled call divides
a finite value by zero — a zero or NaN divisor yields NaN here, and
the zero-divisor branch is never exercised by a theorem.) -/

inductive JNum where
  | nan : JNum
  | v : ℝ → JNum

noncomputable def jadd : JNum → JNum → JNum
  | .v a, .v b => .v (a + b)
  | _, _ => .nan

noncomputable def jsub : JNum → JNum → JNum
  | .v a, .v b => .v (a - b)
  | _, _ => .nan

noncomputable def jmul : JNum → JNum → JNum
  | .v a, .v b => .v (a * b)
  | _, _ => .nan

noncomputable def jdiv : JNum → JNum → JNum
  | .v a, .v b => if b = 0 then .nan else .v (a / b)
  | _, _ => .nan

/-- JS truncation toward zero, used by the `%` operator. -/
noncomputable def jtrunc (x : ℝ) : ℤ := if 0 ≤ x then ⌊x⌋ else ⌈x⌉

/-- JS `%`: `a - b * trunc (a / b)` on finite operands. -/
noncomputable def jmod : JNum → JNum → JNum
  | .v a, .v b => if b = 0 then .nan else .v (a - b * (jtrunc (a / b) : ℝ))
  | _, _ => .nan

/-- Reading `xs[i]` from a typed array: `undefined` (NaN under
arithmetic) beyond the end. -/
noncomputable def jGet (xs : List ℝ) (i : ℕ) : JNum :=
  if i < xs.length then .v (xs.getD i 0) else .nan

/-! ## Phase tracking (`recalcPhases`, `randomPhases`) -/

/-- The per-bin body of `recalcPhases`: phase difference, frequency
deviation against the bin center `om`, wrap into `(-π, π]`, and the
phase advance `prev + modified * realFreq`. -/
noncomputable def recalcBin (original modified om prevPh curPh : JNum) : JNum :=
  let deltaPhi := jsub curPh prevPh
  let deltaFreq := jsub (jdiv deltaPhi original) om
  let wrapped := jsub (jmod (jadd deltaFreq (.v Real.pi)) (.v (2 * Real.pi))) (.v Real.pi)
  let realFreq := jadd om wrapped
  jadd prevPh (jmul modified realFreq)

/-- The inner `for (bin < size)` loop of `recalcPhases` on one frame's
phase array: bins below `size` are rewritten (out-of-range reads of
`omega` or `prev` give `undefined`, i.e. NaN), later bins keep their
values (a typed array ignores out-of-bounds writes). -/
noncomputable def recalcFrame (size : ℕ) (original modified : JNum)
    (om prev cur : List JNum) : List JNum :=
  (List.range cur.length).map (fun bin =>
    if bin < size then
      recalcBin original modified (om.getD bin .nan) (prev.getD bin .nan) (cur.getD bin .nan)
    else cur.getD bin .nan)

/-- `recalcPhases (frames, { size, hop, factor, sampleRate }, omega)`
restricted to the phase arrays it mutates.  The frame loop starts at
index 2 and each frame reads the already-updated previous frame
(in-place sequential update). -/
noncomputable def recalcPhasesJs (phs : List (List JNum)) (size : ℕ)
    (hop factor sampleRate : JNum) (om : List JNum) : List (List JNum) :=
  let original := jdiv hop sampleRate
  let modified := jdiv (jmul hop factor) sampleRate
  (List.range phs.length).foldl
    (fun acc i =>
      if 2 ≤ i then
        acc.set i (recalcFrame size original modified om (acc.getD (i - 1) []) (acc.getD i []))
      else acc)
    phs

/-- The phase-vocoder branch of `stretch` calls
`recalcPhases(frames, { size, factor, hop }, omega)`: the config
object it builds has no `sampleRate` field, so `recalcPhases` reads
`undefined` for it and both hop times are NaN. -/
noncomputable def stretchRecalcCall (phs : List (List JNum)) (size : ℕ)
    (hop factor : ℝ) (om : List JNum) : List (List JNum) :=
  recalcPhasesJs phs size (.v hop) (.v factor) .nan om

/-- `randomPhases (frames, { size })` on the frames' phase arrays,
with an oracle `rand n i` for the `Math.random()` draw at frame `n`,
bin `i`.  The loop bound is an `Option` because the call sites pass
the bare number `size` as the options object, whose destructured
`size` field is then `undefined`; `i < undefined` is false at once,
so the `none` case assigns nothing. -/
noncomputable def randomPhasesJs (phs : List (List ℝ)) (size? : Option ℕ)
    (rand : ℕ → ℕ → ℝ) : List (List ℝ) :=
  (List.range phs.length).foldl
    (fun acc n =>
      match size? with
      | some size =>
        acc.set n ((List.range (acc.getD n []).length).map (fun i =>
          if i < size then 2 * Real.pi * rand n i else (acc.getD n []).getD i 0))
      | none => acc)
    phs

/-- The paul-stretch branch of `stretch` (and the body of
`paulStretch`) calls `randomPhases(frames, size)` with the bare
number in options position, so the destructured bound is absent. -/
noncomputable def stretchRandomCall (phs : List (List ℝ)) (size : ℕ)
    (rand : ℕ → ℕ → ℝ) : List (List ℝ) :=
  randomPhasesJs phs none rand

/-! ## Synthesis -/

/-- One overlap-add step, `add (hopS, signal, write, write)` with
`write = output.subarray(position, position + hopS)`: for each
`i < hopS` the output cell `position + i` accumulates `signal[i]`
(an out-of-range read of `signal` is `undefined`, i.e. NaN). -/
noncomputable def synthAdd (signal : List ℝ) (hopS pos : ℕ)
    (out : ℕ → JNum) : ℕ → JNum :=
  (List.range hopS).foldl
    (fun o i => Function.update o (pos + i) (jadd (jGet signal i) (o (pos + i))))
    out

/-- The frame loop of `synthesis`: polar → rectangular into the reused
scratch pair, inverse transform, cyclic unshift, overlap-add at the
running position, and advance the position by `hopS`.  The state is
(output buffer, position, reused rectangular scratch). -/
noncomputable def synthLoop (t : Tables) (size hopS : ℕ)
    (frames : List PolarFrame) : (ℕ → JNum) × ℕ × CFrame :=
  frames.foldl
    (fun st fr =>
      let rect := rectangular fr st.2.2 size
      let signal := ifftshift (processRun (-1) t rect).real
      (synthAdd signal hopS st.2.1 st.1, st.2.1 + hopS, rect))
    ((fun _ => JNum.v 0), 0, ⟨zeros size, zeros size⟩)

/-- JS behavior of `synthesis` when `hop * factor` is fractional but
the total output length is a whole number: `subarray` truncates
indices and some typed-array writes fall out of bounds.  No claim
depends on this corner; it is left as an unspecified (but fixed)
value. -/
noncomputable def synthUnmodeled (frames : List PolarFrame) (size hop : ℕ)
    (factor : ℝ) : Except JsErr (List JNum) :=
  Classical.choice ⟨.error .rangeError⟩

section SynthClassical

attribute [local instance] Classical.propDecidable

/-- `synthesis (frames, { ft, size, hop, sampleRate, factor })` with
no caller-supplied output, driven by the transform `fft(size)` the
vocoder builds for the same `size`.  Empty/absent frames throw; then
`zeros(len * hopS + size)` throws a `RangeError` unless the computed
`Float64Array` length is a (nonnegative) whole number. -/
noncomputable def synthesisJs (frames : List PolarFrame) (size hop : ℕ)
    (factor : ℝ) : Except JsErr (List JNum) :=
  if frames.length = 0 then .error .framesRequired
  else if h : ∃ n : ℕ, (n : ℝ) = (frames.length : ℝ) * ((hop : ℝ) * factor) + (size : ℝ) then
    if h2 : ∃ m : ℕ, (m : ℝ) = (hop : ℝ) * factor then
      .ok ((List.range (Classical.choose h)).map
        ((synthLoop (theTables size) size (Classical.choose h2) frames).1))
    else synthUnmodeled frames size hop factor
  else .error .rangeError

end SynthClassical

/-! ## Specification helpers for the transform proof

These are not translations of source code; they are the mathematical
yardsticks the transform is measured against. -/

/-- Reversal of the low `m` bits of `i` (least-significant first). -/
def bitRev : ℕ → ℕ → ℕ
  | 0, _ => 0
  | m + 1, i => bitRev m (i / 2) + (i % 2) * 2 ^ m

/-- The principal `n`-th root of unity used by the transform,
`exp(-2πi/n)`. -/
noncomputable def W (n : ℕ) : ℂ :=
  Complex.exp (-(2 * Real.pi / n) * Complex.I)

/-- The reference discrete Fourier transform of `y` at bin `j`. -/
noncomputable def dftSum (N : ℕ) (y : ℕ → ℂ) (j : ℕ) : ℂ :=
  ∑ tt in Finset.range N, y tt * W N ^ (j * tt)

/-! ## Theorems -/

lemma listSwap_length {α : Type} (l : List α) (i j : ℕ) :
    (listSwap l i j).length = l.length := by
  unfold listSwap
  rcases hi : l.get? i with _ | a <;> rcases hj : l.get? j with _ | b <;>
    simp [List.length_set]

lemma revRange_length {α : Type} (l : List α) (f t : ℕ) :
    (revRange l f t).length = l.length := by
  induction l, f, t using revRange.induct with
  | case1 l f t h ih => rw [revRange, dif_pos h, ih, listSwap_length]
  | case2 l f t h => rw [revRange, dif_neg h]

lemma listSwap_getElem? {α : Type} (l : List α) (i j : ℕ)
    (hi : i < l.length) (hj : j < l.length) (k : ℕ) :
    (listSwap l i j)[k]? =
      if k = i then l[j]? else if k = j then l[i]? else l[k]? := by
  have hgi : l.get? i = some (l.get ⟨i, hi⟩) := List.get?_eq_get hi
  have hgj : l.get? j = some (l.get ⟨j, hj⟩) := List.get?_eq_get hj
  have hli : l[i]? = some (l.get ⟨i, hi⟩) := List.getElem?_eq_getElem hi
  have hlj : l[j]? = some (l.get ⟨j, hj⟩) := List.getElem?_eq_getElem hj
  unfold listSwap
  rw [hgi, hgj]
  by_cases hkj : k = j
  · rw [hkj, List.getElem?_set_self (by rw [List.length_set]; exact hj)]
    by_cases hji : j = i
    · rw [if_pos hji, hji, hli]
    · rw [if_neg hji, if_pos rfl, hli]
  · rw [List.getElem?_set_ne (fun hh => hkj hh.symm)]
    by_cases hki : k = i
    · rw [hki, List.getElem?_set_self hi, if_pos rfl, hlj]
    · rw [List.getElem?_set_ne (fun hh => hki hh.symm), if_neg hki, if_neg hkj]

lemma revRange_getElem? {α : Type} (l : List α) (f t : ℕ) (ht : t ≤ l.length) (k : ℕ) :
    (revRange l f t)[k]? =
      if f ≤ k ∧ k < t then l[f + t - 1 - k]? else l[k]? := by
  induction l, f, t using revRange.induct with
  | case1 l f t h ih =>
    rw [revRange, dif_pos h]
    have hlen : (listSwap l f (t - 1)).length = l.length := listSwap_length ..
    have hf : f < l.length := by omega
    have ht1 : t - 1 < l.length := by omega
    rw [ih (by omega)]
    by_cases h1 : f + 1 ≤ k ∧ k < t - 1
    · rw [if_pos h1, if_pos (by omega)]
      rw [listSwap_getElem? l f (t - 1) hf ht1]
      have hne1 : ¬(f + 1 + (t - 1) - 1 - k = f) := by omega
      have hne2 : ¬(f + 1 + (t - 1) - 1 - k = t - 1) := by omega
      rw [if_neg hne1, if_neg hne2]
      congr 1
      omega
    · rw [if_neg h1]
      rw [listSwap_getElem? l f (t - 1) hf ht1]
      by_cases hkf : k = f
      · subst hkf
        rw [if_pos rfl, if_pos (by omega)]
        congr 1
        omega
      · rw [if_neg hkf]
        by_cases hkt : k = t - 1
        · subst hkt
          rw [if_pos rfl, if_pos (by omega)]
          congr 1
          omega
        · rw [if_neg hkt, if_neg (by omega)]
  | case2 l f t h =>
    rw [revRange, dif_neg h]
    by_cases h1 : f ≤ k ∧ k < t
    · rw [if_pos h1]
      congr 1
      omega
    · rw [if_neg h1]

lemma rotateJs_length {α : Type} (l : List α) (n : ℕ) :
    (rotateJs l n).length = l.length := by
  unfold rotateJs
  rw [revRange_length, revRange_length, revRange_length]

lemma rotateJs_getElem? {α : Type} (l : List α) (n : ℕ) (hn : n ≤ l.length)
    (k : ℕ) (hk : k < l.length) :
    (rotateJs l n)[k]? =
      if k < n then l[l.length - n + k]? else l[k - n]? := by
  unfold rotateJs
  have len1 : (revRange l 0 l.length).length = l.length := revRange_length ..
  have len2 : (revRange (revRange l 0 l.length) 0 n).length = l.length := by
    rw [revRange_length, len1]
  rw [revRange_getElem? _ n l.length (by omega)]
  by_cases hmid : n ≤ k ∧ k < l.length
  · rw [if_pos (by omega), if_neg (by omega)]
    rw [revRange_getElem? _ 0 n (by omega)]
    rw [if_neg (by omega)]
    rw [revRange_getElem? _ 0 l.length (by omega)]
    rw [if_pos (by omega)]
    congr 1
    omega
  · have hkn : k < n := by omega
    rw [if_neg (by omega), if_pos hkn]
    rw [revRange_getElem? _ 0 n (by omega), if_pos (by omega)]
    rw [revRange_getElem? _ 0 l.length (by omega), if_pos (by omega)]
    congr 1
    omega

/-- C5: `ifftshift` undoes `fftshift` exactly, for buffers of any
length (even or odd), with no numeric error: the composition is the
identity on the list of samples. -/
theorem ifftshift_fftshift (l : List ℝ) : ifftshift (fftshift l) = l := by
  have hlen1 : (fftshift l).length = l.length := rotateJs_length ..
  have hlen2 : (ifftshift (fftshift l)).length = l.length := by
    unfold ifftshift
    rw [rotateJs_length, hlen1]
  apply List.ext_getElem?
  intro k
  by_cases hk : k < l.length
  · have hr : (rotateJs l (l.length / 2)).length = l.length := rotateJs_length ..
    unfold ifftshift fftshift
    rw [hr]
    rw [rotateJs_getElem? _ _ (by rw [hr]; omega) _ (by rw [hr]; omega), hr]
    by_cases h2 : k < (l.length + 1) / 2
    · rw [if_pos h2]
      rw [rotateJs_getElem? _ _ (by omega) _ (by omega)]
      rw [if_neg (by omega)]
      congr 1
      omega
    · rw [if_neg h2]
      rw [rotateJs_getElem? _ _ (by omega) _ (by omega)]
      rw [if_pos (by omega)]
      congr 1
      omega
  · rw [List.getElem?_eq_none (by omega), List.getElem?_eq_none (by omega)]

lemma isPow2_eq (v : ℕ) :
    isPow2 v = true ↔ Nat.land v (v - 1) = 0 ∧ v ≠ 0 := by
  simp [isPow2]

lemma land_self (a : ℕ) : Nat.land a a = a := by
  show a &&& a = a
  apply Nat.eq_of_testBit_eq
  intro i
  simp [Nat.testBit_land]

lemma land_even_odd (m n : ℕ) : Nat.land (2 * m) (2 * n + 1) = 2 * Nat.land m n := by
  have h := @Nat.bitwise_bit and (by simp) false m true n
  simpa [Nat.bit_val] using h

lemma land_odd_even (m n : ℕ) : Nat.land (2 * m + 1) (2 * n) = 2 * Nat.land m n := by
  have h := @Nat.bitwise_bit and (by simp) true m false n
  simpa [Nat.bit_val] using h

lemma isPow2_iff (v : ℕ) : isPow2 v = true ↔ ∃ k : ℕ, v = 2 ^ k := by
  rw [isPow2_eq]
  induction v using Nat.binaryRec with
  | z =>
    constructor
    · rintro ⟨-, h⟩
      exact absurd rfl h
    · rintro ⟨k, h⟩
      have := Nat.pos_pow_of_pos k (show 0 < 2 by omega)
      omega
  | f b n ih =>
    cases b with
    | false =>
      rcases Nat.eq_zero_or_pos n with hn | hn
      · subst hn
        simp [Nat.bit_val]
        rintro k h
        have := Nat.pos_pow_of_pos k (show 0 < 2 by omega)
        omega
      · have hbit : Nat.bit false n = 2 * n := by simp [Nat.bit_val]
        rw [hbit]
        have h21 : 2 * n - 1 = 2 * (n - 1) + 1 := by omega
        rw [h21, land_even_odd]
        constructor
        · rintro ⟨h0, -⟩
          rcases ih.1 ⟨by omega, by omega⟩ with ⟨k, hk⟩
          exact ⟨k + 1, by rw [pow_succ, ← hk]; ring⟩
        · rintro ⟨k, hk⟩
          cases k with
          | zero => omega
          | succ j =>
            rw [pow_succ] at hk
            have hn2 : n = 2 ^ j := by omega
            rcases ih.2 ⟨j, hn2⟩ with ⟨h0, -⟩
            exact ⟨by omega, by omega⟩
    | true =>
      have hbit : Nat.bit true n = 2 * n + 1 := by simp [Nat.bit_val]
      rw [hbit]
      rcases Nat.eq_zero_or_pos n with hn | hn
      · subst hn
        constructor
        · intro _
          exact ⟨0, rfl⟩
        · intro _
          refine ⟨?_, by omega⟩
          decide
      · have h20 : 2 * n + 1 - 1 = 2 * n := by omega
        rw [h20, land_odd_even, land_self]
        constructor
        · rintro ⟨h0, -⟩
          omega
        · rintro ⟨k, hk⟩
          cases k with
          | zero => omega
          | succ j =>
            rw [pow_succ] at hk
            omega

/-- C8: `fft (size)` fails with the construction error exactly when
`size` is not a power of two (including `size = 0`), and succeeds on
every power of two. -/
theorem fft_construction (size : ℕ) :
    (¬ (∃ k : ℕ, size = 2 ^ k) → fftJs size = .error .sizeNotPow2) ∧
    ((∃ k : ℕ, size = 2 ^ k) → ∃ t, fftJs size = .ok t) := by
  constructor
  · intro h
    have hb : ¬ isPow2 size = true := fun hp => h ((isPow2_iff size).1 hp)
    unfold fftJs tablesJs
    rw [if_neg hb]
  · intro h
    have hb : isPow2 size = true := (isPow2_iff size).2 h
    unfold fftJs tablesJs
    rw [if_pos hb]
    exact ⟨_, rfl⟩

/-- Witness for C8 at concrete sizes: 3 is rejected, 4 is accepted. -/
theorem fft_construction_witness :
    fftJs 3 = .error .sizeNotPow2 ∧ ∃ t, fftJs 4 = .ok t := by
  constructor
  · refine (fft_construction 3).1 ?_
    rintro ⟨k, hk⟩
    cases k with
    | zero => omega
    | succ j =>
      rw [pow_succ] at hk
      cases j with
      | zero => omega
      | succ i =>
        rw [pow_succ] at hk
        have : 0 < 2 ^ i := Nat.pos_pow_of_pos i (by omega)
        omega
  · exact (fft_construction 4).2 ⟨2, rfl⟩


lemma processRun_real_length (dir : ℤ) (t : Tables) (inp : CFrame) :
    (processRun dir t inp).real.length = t.size := by
  simp [processRun]

lemma processRun_imag_length (dir : ℤ) (t : Tables) (inp : CFrame) :
    (processRun dir t inp).imag.length = t.size := by
  simp [processRun]

lemma analysisFrame_lengths (signal : List ℝ) (size hop : ℕ)
    (window : List ℝ) (t : Tables) (i : ℕ) :
    (analysisFrame signal size hop window t i).magnitudes.length = t.size ∧
    (analysisFrame signal size hop window t i).phases.length = t.size := by
  unfold analysisFrame polar
  simp [processRun_real_length]

/-- C4 (behavior of the code at the spec's edge condition): for a
valid configuration (power-of-two `size`, `0 < hop < size`) and a
signal shorter than one frame, `analysis` does not return an empty
frame sequence: `numFrames` is negative and `new Array(numFrames)`
throws a `RangeError`. -/
theorem analysis_short_signal_throws (signal : List ℝ) (size hop : ℕ)
    (w : ℕ → ℕ → ℝ) (hpow : ∃ k : ℕ, size = 2 ^ k) (hhop : 0 < hop)
    (hhs : hop < size) (hlen : signal.length < size) :
    analysisJs signal size hop w = .error .rangeError := by
  have hb : isPow2 size = true := (isPow2_iff size).2 hpow
  have hneg : numFramesJs signal.length size hop < 0 := by
    unfold numFramesJs
    rw [Int.floor_lt]
    push_cast
    apply div_neg_of_neg_of_pos
    · have h1 : (signal.length : ℚ) < (size : ℚ) := by exact_mod_cast hlen
      linarith
    · exact_mod_cast hhop
  unfold analysisJs tablesJs
  rw [if_pos hb]
  show analysisCore signal size hop w (theTables size) = .error .rangeError
  unfold analysisCore
  rw [if_pos hneg]

/-- Witness for C4's theorem at a concrete input: a 4-sample signal
with `size = 8`, `hop = 4`. -/
theorem analysis_short_signal_throws_witness :
    analysisJs (zeros 4) 8 4 (fun _ _ => 1) = .error .rangeError :=
  analysis_short_signal_throws (zeros 4) 8 4 (fun _ _ => 1) ⟨3, rfl⟩
    (by omega) (by omega) (by simp [zeros])

/-- C7: on the concrete scenario (`size = 8`, `hop = 4`, 16-sample
ramp signal) `analysis` yields exactly 2 frames whose magnitude and
phase arrays have length 8; in general, every frame produced by
`analysis` has magnitude and phase arrays of length `size`. -/
theorem analysis_frame_count_and_lengths :
    (∃ fs, analysisJs (rampSignal 16) 8 4 (fun _ _ => 1) = .ok fs ∧
      fs.length = 2 ∧
      fs.all (fun f => f.magnitudes.length == 8 && f.phases.length == 8) = true) ∧
    (∀ (signal : List ℝ) (size hop : ℕ) (w : ℕ → ℕ → ℝ),
      (framesOf (analysisJs signal size hop w)).all
        (fun f => f.magnitudes.length == size && f.phases.length == size) = true) := by
  constructor
  · have hb : isPow2 8 = true := by decide
    have hlen : (rampSignal 16).length = 16 := by
      unfold rampSignal
      rw [List.length_map, List.length_range]
    have hnum : numFramesJs 16 8 4 = 2 := by
      unfold numFramesJs
      norm_num
    refine ⟨(List.range (2 : ℕ)).map
      (analysisFrame (rampSignal 16) 8 4 (fill 8 (fun _ _ => 1)) (theTables 8)), ?_, ?_, ?_⟩
    · unfold analysisJs tablesJs
      rw [if_pos hb]
      show analysisCore (rampSignal 16) 8 4 (fun _ _ => 1) (theTables 8) = _
      unfold analysisCore
      rw [hlen, hnum]
      rw [if_neg (show ¬(2 : ℤ) < 0 by norm_num)]
      rfl
    · simp
    · rw [List.all_eq_true]
      intro f hf
      rw [List.mem_map] at hf
      obtain ⟨i, -, hi⟩ := hf
      have hl := analysisFrame_lengths (rampSignal 16) 8 4 (fill 8 (fun _ _ => 1)) (theTables 8) i
      rw [hi] at hl
      simp only [Bool.and_eq_true, beq_iff_eq]
      exact ⟨by rw [hl.1]; rfl, by rw [hl.2]; rfl⟩
  · intro signal size hop w
    unfold analysisJs tablesJs
    by_cases hb : isPow2 size = true
    · rw [if_pos hb]
      show (framesOf (analysisCore signal size hop w (theTables size))).all _ = true
      unfold analysisCore
      by_cases hneg : numFramesJs signal.length size hop < 0
      · rw [if_pos hneg]
        rfl
      · rw [if_neg hneg]
        show ((List.range _).map _).all _ = true
        rw [List.all_eq_true]
        intro f hf
        rw [List.mem_map] at hf
        obtain ⟨i, -, hi⟩ := hf
        have hl := analysisFrame_lengths signal size hop (fill size w) (theTables size) i
        rw [hi] at hl
        simp only [Bool.and_eq_true, beq_iff_eq]
        exact ⟨by rw [hl.1]; rfl, by rw [hl.2]; rfl⟩
    · rw [if_neg hb]
      rfl

/-- C9: the transform's synchronous buffer length checks.  A real or
imaginary buffer whose length differs from the configured size makes
both `forward` and `inverse` fail with the length-mismatch error;
when both lengths match, the call returns a result instead. -/
theorem process_length_checks (t : Tables) (inp : CFrame) :
    ((inp.real.length ≠ t.size ∨ inp.imag.length ≠ t.size) →
      forwardJs t inp = .error .lengthMismatch ∧
      inverseJs t inp = .error .lengthMismatch) ∧
    (inp.real.length = t.size → inp.imag.length = t.size →
      forwardJs t inp = .ok (processRun 1 t inp) ∧
      inverseJs t inp = .ok (processRun (-1) t inp)) := by
  unfold forwardJs inverseJs processJs
  constructor
  · intro h
    rcases h with h | h
    · rw [if_pos h, if_pos h]
      exact ⟨rfl, rfl⟩
    · by_cases hre : inp.real.length ≠ t.size
      · rw [if_pos hre, if_pos hre]
        exact ⟨rfl, rfl⟩
      · rw [if_neg hre, if_neg hre, if_pos h, if_pos h]
        exact ⟨rfl, rfl⟩
  · intro h1 h2
    rw [if_neg (by omega), if_neg (by omega), if_neg (by omega), if_neg (by omega)]
    exact ⟨rfl, rfl⟩

/-- Witness for C9 at concrete inputs: a 3-sample real buffer against
a size-2 transform is rejected by both directions; matching 2-sample
buffers are accepted. -/
theorem process_length_checks_witness :
    (forwardJs (theTables 2) ⟨[1, 2, 3], [0, 0]⟩ = .error .lengthMismatch ∧
     inverseJs (theTables 2) ⟨[1, 2, 3], [0, 0]⟩ = .error .lengthMismatch) ∧
    (forwardJs (theTables 2) ⟨[1, 2], [3, 4]⟩ =
       .ok (processRun 1 (theTables 2) ⟨[1, 2], [3, 4]⟩) ∧
     inverseJs (theTables 2) ⟨[1, 2], [3, 4]⟩ =
       .ok (processRun (-1) (theTables 2) ⟨[1, 2], [3, 4]⟩)) :=
  ⟨(process_length_checks (theTables 2) ⟨[1, 2, 3], [0, 0]⟩).1
      (Or.inl (by simp [theTables])),
   (process_length_checks (theTables 2) ⟨[1, 2], [3, 4]⟩).2
      (by simp [theTables]) (by simp [theTables])⟩

/-- C10: with output buffers distinct from the input buffers, the
transform reads its input but writes only the output: the input's
real and imaginary buffers are unchanged by either direction. -/
theorem process_preserves_input (dir : ℤ) (t : Tables)
    (inR inI outR outI : ℕ) (hp : Heap)
    (h1 : outR ≠ inR) (h2 : outI ≠ inR) (h3 : outR ≠ inI) (h4 : outI ≠ inI) :
    (processHeap dir t inR inI outR outI hp).bufs inR = hp.bufs inR ∧
    (processHeap dir t inR inI outR outI hp).bufs inI = hp.bufs inI := by
  unfold processHeap
  constructor
  · show Function.update (Function.update hp.bufs outR _) outI _ inR = hp.bufs inR
    rw [Function.update_apply, if_neg (fun hh => h2 hh.symm),
      Function.update_apply, if_neg (fun hh => h1 hh.symm)]
  · show Function.update (Function.update hp.bufs outR _) outI _ inI = hp.bufs inI
    rw [Function.update_apply, if_neg (fun hh => h4 hh.symm),
      Function.update_apply, if_neg (fun hh => h3 hh.symm)]

/-- Witness for C10 at concrete buffer ids (input 0/1, output 2/3)
over an empty heap. -/
theorem process_preserves_input_witness :
    (processHeap 1 (theTables 1) 0 1 2 3 ⟨fun _ => []⟩).bufs 0 = ([] : List ℝ) ∧
    (processHeap 1 (theTables 1) 0 1 2 3 ⟨fun _ => []⟩).bufs 1 = ([] : List ℝ) :=
  process_preserves_input 1 (theTables 1) 0 1 2 3 ⟨fun _ => []⟩
    (by omega) (by omega) (by omega) (by omega)

/-- C1 (behavior of the code at the `stretch` call site): the config
object `{ size, factor, hop }` passed to `recalcPhases` has no
`sampleRate`, so both hop times are `hop / undefined = NaN` and every
recomputed phase — all bins of all frames `i ≥ 2` — becomes NaN
rather than `phase[i-1] + (hop*factor/sampleRate) * instFreq`; frames
0 and 1 keep their analysis phases.  Shown on a concrete three-frame,
one-bin sequence whose claimed-formula value would be the real number
0. -/
theorem recalcPhases_missing_sampleRate :
    stretchRecalcCall [[JNum.v 0], [JNum.v 0], [JNum.v 0]] 1 4 2 [JNum.v 0] =
      [[JNum.v 0], [JNum.v 0], [JNum.nan]] := rfl

/-- C3 (behavior of the code at the paul-stretch call sites):
`randomPhases(frames, size)` passes the bare number where `{ size }`
is destructured, so the loop bound reads as `undefined` and no phase
is ever assigned: the frame sequence comes back bit-identical.
Magnitudes are (vacuously) preserved, but phases are not randomized —
they keep their raw `atan2` values, which need not lie in `[0, 2π)`. -/
theorem randomPhases_as_called (phs : List (List ℝ)) (size : ℕ)
    (rand : ℕ → ℕ → ℝ) : stretchRandomCall phs size rand = phs := by
  unfold stretchRandomCall randomPhasesJs
  show (List.range phs.length).foldl (fun acc _ => acc) phs = phs
  generalize List.range phs.length = l
  induction l generalizing phs with
  | nil => rfl
  | cons a l ih => exact ih phs

lemma synthAdd_outside (signal : List ℝ) (pos : ℕ) (out : ℕ → JNum) (j : ℕ) :
    ∀ hopS : ℕ, (j < pos ∨ pos + hopS ≤ j) → synthAdd signal hopS pos out j = out j := by
  intro hopS
  induction hopS with
  | zero =>
    intro hj
    rfl
  | succ n ih =>
    intro hj
    show ((List.range (n + 1)).foldl
      (fun o i => Function.update o (pos + i) (jadd (jGet signal i) (o (pos + i)))) out) j = out j
    rw [List.range_succ, List.foldl_append, List.foldl_cons, List.foldl_nil]
    rw [Function.update_apply, if_neg (by omega)]
    exact ih (by omega)

lemma synthFold_spec (t : Tables) (size hopS : ℕ) :
    ∀ (frames : List PolarFrame) (out0 : ℕ → JNum) (pos0 : ℕ) (rect0 : CFrame),
      (∀ j, pos0 ≤ j → out0 j = JNum.v 0) →
      (frames.foldl
        (fun st fr =>
          (synthAdd (ifftshift (processRun (-1) t (rectangular fr st.2.2 size)).real)
            hopS st.2.1 st.1, st.2.1 + hopS, rectangular fr st.2.2 size))
        (out0, pos0, rect0)).2.1 = pos0 + frames.length * hopS ∧
      ∀ j, pos0 + frames.length * hopS ≤ j →
        (frames.foldl
          (fun st fr =>
            (synthAdd (ifftshift (processRun (-1) t (rectangular fr st.2.2 size)).real)
              hopS st.2.1 st.1, st.2.1 + hopS, rectangular fr st.2.2 size))
          (out0, pos0, rect0)).1 j = JNum.v 0 := by
  intro frames
  induction frames with
  | nil =>
    intro out0 pos0 rect0 h0
    exact ⟨by simp, fun j hj => h0 j (by omega)⟩
  | cons fr fs ih =>
    intro out0 pos0 rect0 h0
    rw [List.foldl_cons]
    have h1 : ∀ j, pos0 + hopS ≤ j →
        synthAdd (ifftshift (processRun (-1) t (rectangular fr rect0 size)).real)
          hopS pos0 out0 j = JNum.v 0 := by
      intro j hj
      rw [synthAdd_outside _ _ _ _ hopS (Or.inr (by omega))]
      exact h0 j (by omega)
    have := ih (synthAdd (ifftshift (processRun (-1) t (rectangular fr rect0 size)).real)
      hopS pos0 out0) (pos0 + hopS) (rectangular fr rect0 size) h1
    refine ⟨?_, ?_⟩
    · rw [this.1]
      simp
      ring
    · intro j hj
      refine this.2 j ?_
      have hlen : (fr :: fs).length = fs.length + 1 := rfl
      rw [hlen] at hj
      have : fs.length * hopS + hopS = (fs.length + 1) * hopS := by ring
      omega

lemma synthLoop_spec (t : Tables) (size hopS : ℕ) (frames : List PolarFrame) :
    (synthLoop t size hopS frames).2.1 = frames.length * hopS ∧
    ∀ j, frames.length * hopS ≤ j → (synthLoop t size hopS frames).1 j = JNum.v 0 := by
  have h := synthFold_spec t size hopS frames (fun _ => JNum.v 0) 0 ⟨zeros size, zeros size⟩
    (fun _ _ => rfl)
  unfold synthLoop
  exact ⟨by rw [h.1]; omega, fun j hj => h.2 j (by omega)⟩

/-- C6 counterexample: for one frame, `size = 1`, `hop = 1`,
`factor = 1/2`, the computed output length `1 * (1 * 1/2) + 1 = 3/2`
is not a whole number, so `zeros(len * hopS + size)` throws a
`RangeError` and synthesis returns no signal at all, contrary to the
claim's universally quantified output-length formula. -/
theorem synthesis_fractional_counterexample :
    synthesisJs [⟨[0], [0]⟩] 1 1 (1 / 2) = .error .rangeError ∧
    ∀ out, synthesisJs [⟨[0], [0]⟩] 1 1 (1 / 2) ≠ .ok out := by
  have hno : ¬ ∃ n : ℕ, (n : ℝ) =
      (([(⟨[0], [0]⟩ : PolarFrame)].length : ℕ) : ℝ) * (((1 : ℕ) : ℝ) * (1 / 2)) + (((1 : ℕ) : ℝ)) := by
    rintro ⟨n, hn⟩
    norm_num at hn
    have h2 : (2 * n : ℝ) = 3 := by
      rw [hn]
      norm_num
    have h3 : ((2 * n : ℕ) : ℝ) = ((3 : ℕ) : ℝ) := by push_cast; linarith
    have h4 : 2 * n = 3 := Nat.cast_injective h3
    omega
  constructor
  · unfold synthesisJs
    rw [if_neg (by simp), dif_neg hno]
  · intro out
    unfold synthesisJs
    rw [if_neg (by simp), dif_neg hno]
    intro hc
    cases hc

/-- C6 as amended: when `hop * factor` is a whole number `hS` (the
claim's formula only produces an array length at all in that case),
synthesis without a caller-supplied output returns a buffer of length
exactly `numFrames * hS + size`, and every sample at or beyond
`numFrames * hS` — outside all written overlap-add segments — is
still the zero the buffer was pre-filled with. -/
theorem synthesis_output_envelope (frames : List PolarFrame) (size hop : ℕ)
    (factor : ℝ) (hne : frames.length ≠ 0) (hS : ℕ)
    (hfac : (hop : ℝ) * factor = (hS : ℝ)) :
    ∃ out, synthesisJs frames size hop factor = .ok out ∧
      out.length = frames.length * hS + size ∧
      ∀ j, frames.length * hS ≤ j → j < out.length → out.getD j .nan = JNum.v 0 := by
  have htot : ∃ n : ℕ, (n : ℝ) =
      (frames.length : ℝ) * ((hop : ℝ) * factor) + (size : ℝ) := by
    refine ⟨frames.length * hS + size, ?_⟩
    rw [hfac]
    push_cast
    ring
  have hhopS : ∃ m : ℕ, (m : ℝ) = (hop : ℝ) * factor := ⟨hS, hfac.symm⟩
  have hchoose1 : Classical.choose htot = frames.length * hS + size := by
    have hs := Classical.choose_spec htot
    have hcast : ((Classical.choose htot : ℕ) : ℝ) = ((frames.length * hS + size : ℕ) : ℝ) := by
      rw [hs, hfac]
      push_cast
      ring
    exact Nat.cast_injective hcast
  have hchoose2 : Classical.choose hhopS = hS := by
    have hs := Classical.choose_spec hhopS
    have hcast : ((Classical.choose hhopS : ℕ) : ℝ) = ((hS : ℕ) : ℝ) := by
      rw [hs, hfac]
    exact Nat.cast_injective hcast
  refine ⟨(List.range (Classical.choose htot)).map
    ((synthLoop (theTables size) size (Classical.choose hhopS) frames).1), ?_, ?_, ?_⟩
  · unfold synthesisJs
    rw [if_neg hne, dif_pos htot, dif_pos hhopS]
  · rw [List.length_map, List.length_range, hchoose1]
  · intro j hj hjlen
    rw [List.length_map, List.length_range] at hjlen
    rw [List.getD_eq_getElem?_getD, List.getElem?_map, List.getElem?_range hjlen]
    show (synthLoop (theTables size) size (Classical.choose hhopS) frames).1 j = JNum.v 0
    rw [hchoose2]
    exact (synthLoop_spec (theTables size) size hS frames).2 j hj

/-- Witness for the amended C6 theorem at a concrete input: one
length-1 frame, `size = 1`, `hop = 2`, `factor = 3/2`, so `hS = 3`
and the output has length `1*3 + 1 = 4` with a zero tail. -/
theorem synthesis_output_envelope_witness :
    ∃ out, synthesisJs [⟨[0], [0]⟩] 1 2 (3 / 2) = .ok out ∧
      out.length = [(⟨[0], [0]⟩ : PolarFrame)].length * 3 + 1 ∧
      ∀ j, [(⟨[0], [0]⟩ : PolarFrame)].length * 3 ≤ j → j < out.length →
        out.getD j .nan = JNum.v 0 :=
  synthesis_output_envelope [⟨[0], [0]⟩] 1 2 (3 / 2) (by simp) 3 (by norm_num)

/-! ### The transform computes the DFT: bit-reversal table -/

lemma getD_map_range {β : Type} (f : ℕ → β) (n i : ℕ) (d : β) :
    ((List.range n).map f).getD i d = if i < n then f i else d := by
  rw [List.getD_eq_getElem?_getD, List.getElem?_map]
  by_cases h : i < n
  · rw [List.getElem?_range h, if_pos h]
    rfl
  · rw [if_neg h, List.getElem?_eq_none (by rw [List.length_range]; omega)]
    rfl

lemma bitRev_zero (m : ℕ) : bitRev m 0 = 0 := by
  induction m with
  | zero => rfl
  | succ k ih => simp [bitRev, ih]

lemma bitRev_lt (m : ℕ) : ∀ i, i < 2 ^ m → bitRev m i < 2 ^ m := by
  induction m with
  | zero =>
    intro i hi
    simpa [bitRev] using hi
  | succ k ih =>
    intro i hi
    have h1 : bitRev k (i / 2) < 2 ^ k := ih (i / 2) (by rw [pow_succ] at hi; omega)
    have h2 : i % 2 ≤ 1 := by omega
    have h3 : (i % 2) * 2 ^ k ≤ 2 ^ k := by
      calc (i % 2) * 2 ^ k ≤ 1 * 2 ^ k := Nat.mul_le_mul_right _ h2
      _ = 2 ^ k := by ring
    show bitRev k (i / 2) + (i % 2) * 2 ^ k < 2 ^ (k + 1)
    rw [pow_succ]
    omega

lemma bitRev_even (m q : ℕ) : bitRev (m + 1) (2 * q) = bitRev m q := by
  show bitRev m ((2 * q) / 2) + ((2 * q) % 2) * 2 ^ m = bitRev m q
  have h1 : (2 * q) / 2 = q := by omega
  have h2 : (2 * q) % 2 = 0 := by omega
  rw [h1, h2]
  ring

lemma bitRev_odd (m q : ℕ) : bitRev (m + 1) (2 * q + 1) = bitRev m q + 2 ^ m := by
  show bitRev m ((2 * q + 1) / 2) + ((2 * q + 1) % 2) * 2 ^ m = bitRev m q + 2 ^ m
  have h1 : (2 * q + 1) / 2 = q := by omega
  have h2 : (2 * q + 1) % 2 = 1 := by omega
  rw [h1, h2]
  ring

lemma bitRev_add_pow : ∀ s m i : ℕ, s < m → i < 2 ^ s →
    bitRev m (i + 2 ^ s) = bitRev m i + 2 ^ (m - 1 - s) := by
  intro s
  induction s with
  | zero =>
    intro m i hm hi
    have hi0 : i = 0 := by omega
    subst hi0
    obtain ⟨k, rfl⟩ : ∃ k, m = k + 1 := ⟨m - 1, by omega⟩
    show bitRev (k + 1) 1 = bitRev (k + 1) 0 + 2 ^ (k + 1 - 1 - 0)
    rw [bitRev_zero]
    show bitRev k (1 / 2) + (1 % 2) * 2 ^ k = 0 + 2 ^ (k + 1 - 1 - 0)
    norm_num [bitRev_zero]
  | succ s ih =>
    intro m i hm hi
    obtain ⟨k, rfl⟩ : ∃ k, m = k + 1 := ⟨m - 1, by omega⟩
    have hsplit : (i + 2 ^ (s + 1)) / 2 = i / 2 + 2 ^ s := by
      rw [pow_succ]
      omega
    have hpar : (i + 2 ^ (s + 1)) % 2 = i % 2 := by
      rw [pow_succ]
      omega
    show bitRev k ((i + 2 ^ (s + 1)) / 2) + ((i + 2 ^ (s + 1)) % 2) * 2 ^ k = _
    rw [hsplit, hpar, ih k (i / 2) (by omega) (by rw [pow_succ] at hi; omega)]
    show bitRev k (i / 2) + 2 ^ (k - 1 - s) + i % 2 * 2 ^ k
      = bitRev k (i / 2) + (i % 2) * 2 ^ k + 2 ^ (k + 1 - 1 - (s + 1))
    have : k - 1 - s = k + 1 - 1 - (s + 1) := by omega
    rw [this]
    ring

lemma revInner_aux (limit bit : ℕ) (rt : ℕ → ℕ) :
    ∀ k, k ≤ limit → ∀ j,
      ((List.range k).foldl (fun r i => Function.update r (i + limit) (r i + bit)) rt) j
        = if limit ≤ j ∧ j < k + limit then rt (j - limit) + bit else rt j := by
  intro k
  induction k with
  | zero =>
    intro _ j
    rw [if_neg (by omega)]
    rfl
  | succ n ih =>
    intro hk j
    rw [List.range_succ, List.foldl_append, List.foldl_cons, List.foldl_nil]
    rw [Function.update_apply]
    have hle : n ≤ limit := by omega
    by_cases hj : j = n + limit
    · rw [if_pos hj, ih hle n, if_neg (show ¬(limit ≤ n ∧ n < n + limit) by omega)]
      rw [if_pos (show limit ≤ j ∧ j < n + 1 + limit by omega)]
      have hjn : j - limit = n := by omega
      rw [hjn]
    · rw [if_neg hj, ih hle j]
      by_cases h1 : limit ≤ j ∧ j < n + limit
      · rw [if_pos h1, if_pos (show limit ≤ j ∧ j < n + 1 + limit by omega)]
      · rw [if_neg h1, if_neg (show ¬(limit ≤ j ∧ j < n + 1 + limit) by omega)]

lemma revInner_eval (limit bit : ℕ) (rt : ℕ → ℕ) (j : ℕ) :
    revInner limit bit rt j =
      if limit ≤ j ∧ j < 2 * limit then rt (j - limit) + bit else rt j := by
  unfold revInner
  rw [revInner_aux limit bit rt limit (le_refl _) j]
  by_cases h : limit ≤ j ∧ j < limit + limit
  · rw [if_pos h, if_pos (by omega)]
  · rw [if_neg h, if_neg (by omega)]

lemma revLoop_spec (m : ℕ) :
    ∀ (fuel s bit : ℕ) (rt : ℕ → ℕ), s ≤ m → m - s ≤ fuel →
      (s < m → bit = 2 ^ (m - 1 - s)) →
      (∀ i, i < 2 ^ s → rt i = bitRev m i) →
      ∀ i, i < 2 ^ m → revLoop fuel (2 ^ s) bit (2 ^ m) rt i = bitRev m i := by
  intro fuel
  induction fuel with
  | zero =>
    intro s bit rt hsm hfuel _ hinv i hi
    have hse : s = m := by omega
    subst hse
    exact hinv i hi
  | succ f ih =>
    intro s bit rt hsm hfuel hbit hinv i hi
    show (if 2 ^ s < 2 ^ m then
        revLoop f (2 * 2 ^ s) (bit / 2) (2 ^ m) (revInner (2 ^ s) bit rt)
      else rt) i = bitRev m i
    by_cases hlt : s < m
    · rw [if_pos (Nat.pow_lt_pow_right (by omega) hlt)]
      have h2s : (2 : ℕ) * 2 ^ s = 2 ^ (s + 1) := by rw [pow_succ]; ring
      rw [h2s]
      refine ih (s + 1) (bit / 2) (revInner (2 ^ s) bit rt) (by omega) (by omega) ?_ ?_ i hi
      · intro hs1
        rw [hbit hlt]
        have he : m - 1 - s = (m - 1 - (s + 1)) + 1 := by omega
        rw [he, pow_succ, Nat.mul_div_cancel _ (by omega)]
      · intro i2 hi2
        rw [revInner_eval]
        by_cases hge : 2 ^ s ≤ i2
        · rw [if_pos ⟨hge, by omega⟩, hinv (i2 - 2 ^ s) (by omega), hbit hlt]
          have hba := bitRev_add_pow s m (i2 - 2 ^ s) hlt (by rw [pow_succ] at hi2; omega)
          rw [← hba]
          congr 1
          omega
        · rw [if_neg (by omega)]
          exact hinv i2 (by omega)
    · have hse : s = m := by omega
      subst hse
      rw [if_neg (lt_irrefl _)]
      exact hinv i hi

lemma revTableFun_spec (m : ℕ) (i : ℕ) (hi : i < 2 ^ m) :
    revTableFun (2 ^ m) i = bitRev m i := by
  show revLoop (2 ^ m) 1 (2 ^ m / 2) (2 ^ m) (fun _ => 0) i = bitRev m i
  have h1 : (1 : ℕ) = 2 ^ (0 : ℕ) := rfl
  rw [h1]
  have hm2 : m < 2 ^ m := Nat.lt_two_pow m
  refine revLoop_spec m (2 ^ m) 0 (2 ^ m / 2) (fun _ => 0) (by omega) (by omega) ?_ ?_ i hi
  · intro h0m
    obtain ⟨k, rfl⟩ : ∃ k, m = k + 1 := ⟨m - 1, by omega⟩
    rw [pow_succ, Nat.mul_div_cancel _ (by omega)]
    have he : k + 1 - 1 - 0 = k := by omega
    rw [he]
  · intro i2 hi2
    have : i2 = 0 := by
      have : (2 : ℕ) ^ (0 : ℕ) = 1 := rfl
      omega
    subst this
    exact (bitRev_zero m).symm

lemma reverseTableList_getD (m i : ℕ) (hi : i < 2 ^ m) :
    (reverseTableList (2 ^ m)).getD i 0 = bitRev m i := by
  unfold reverseTableList
  rw [getD_map_range, if_pos hi, revTableFun_spec m i hi]

/-! ### The transform computes the DFT: loading and butterflies -/

lemma foldl_update_range_eval {β : Type} (g : ℕ → β) :
    ∀ (k : ℕ) (init : ℕ → β) (j : ℕ),
      ((List.range k).foldl (fun a i => Function.update a i (g i)) init) j
        = if j < k then g j else init j := by
  intro k
  induction k with
  | zero =>
    intro init j
    rw [if_neg (by omega)]
    rfl
  | succ n ih =>
    intro init j
    rw [List.range_succ, List.foldl_append, List.foldl_cons, List.foldl_nil,
      Function.update_apply]
    by_cases hj : j = n
    · rw [if_pos hj, if_pos (by omega)]
      rw [hj]
    · rw [if_neg hj, ih init j]
      by_cases h1 : j < n
      · rw [if_pos h1, if_pos (by omega)]
      · rw [if_neg h1, if_neg (by omega)]

lemma loadPerm_eval (dir : ℤ) (rt : List ℕ) (size : ℕ) (rs ims : List ℝ) (j : ℕ) :
    loadPerm dir rt size rs ims j =
      if j < size then
        ⟨rs.getD (rt.getD j 0) 0, (dir : ℝ) * ims.getD (rt.getD j 0) 0⟩
      else 0 := by
  unfold loadPerm
  exact foldl_update_range_eval
    (fun i => (⟨rs.getD (rt.getD i 0) 0, (dir : ℝ) * ims.getD (rt.getD i 0) 0⟩ : ℂ))
    size (fun _ => 0) j

lemma theTables_cos_getD (size h : ℕ) (hh : h < size) :
    (theTables size).cosTable.getD h 0 = Real.cos (-Real.pi / h) := by
  show ((List.range size).map (fun i : ℕ => Real.cos (-Real.pi / i))).getD h 0 = _
  rw [getD_map_range, if_pos hh]

lemma theTables_sin_getD (size h : ℕ) (hh : h < size) :
    (theTables size).sinTable.getD h 0 = Real.sin (-Real.pi / h) := by
  show ((List.range size).map (fun i : ℕ => Real.sin (-Real.pi / i))).getD h 0 = _
  rw [getD_map_range, if_pos hh]

lemma W_pow (n k : ℕ) :
    W n ^ k = Complex.exp (-(2 * Real.pi * k / n) * Complex.I) := by
  unfold W
  rw [← Complex.exp_nat_mul]
  congr 1
  push_cast
  ring

lemma table_step_eq_W (size h : ℕ) (h1 : 1 ≤ h) (hh : h < size) :
    (⟨(theTables size).cosTable.getD h 0, (theTables size).sinTable.getD h 0⟩ : ℂ)
      = W (2 * h) := by
  rw [theTables_cos_getD _ _ hh, theTables_sin_getD _ _ hh]
  have hmk : (⟨Real.cos (-Real.pi / h), Real.sin (-Real.pi / h)⟩ : ℂ)
      = Complex.cos (((-Real.pi / h : ℝ)) : ℂ) + Complex.sin (((-Real.pi / h : ℝ)) : ℂ) * Complex.I := by
    rw [Complex.mk_eq_add_mul_I, Complex.ofReal_cos, Complex.ofReal_sin]
  rw [hmk, ← Complex.exp_mul_I]
  unfold W
  congr 1
  have hne : ((h : ℂ)) ≠ 0 := by
    exact_mod_cast Nat.cast_ne_zero.2 (by omega)
  have h2ne : ((2 * h : ℕ) : ℂ) ≠ 0 := by
    have hx : (2 * h : ℕ) ≠ 0 := by omega
    exact_mod_cast hx
  push_cast
  field_simp
  try ring

lemma W_sq (h : ℕ) (h1 : 1 ≤ h) : W (2 * h) ^ 2 = W h := by
  rw [W_pow]
  unfold W
  congr 1
  have hne : ((h : ℂ)) ≠ 0 := by
    exact_mod_cast Nat.cast_ne_zero.2 (by omega)
  push_cast
  field_simp
  try ring

lemma W_pow_self (n : ℕ) (h1 : 1 ≤ n) : W n ^ n = 1 := by
  rw [W_pow]
  have hne : ((n : ℂ)) ≠ 0 := by
    exact_mod_cast Nat.cast_ne_zero.2 (by omega)
  have harg : -(2 * (Real.pi : ℂ) * n / n) * Complex.I
      = (-1 : ℤ) * (2 * (Real.pi : ℂ) * Complex.I) := by
    field_simp
    try ring
  rw [harg, Complex.exp_int_mul_two_pi_mul_I]

lemma W_pow_half (h : ℕ) (h1 : 1 ≤ h) : W (2 * h) ^ h = -1 := by
  rw [W_pow]
  have hne : ((h : ℂ)) ≠ 0 := by
    exact_mod_cast Nat.cast_ne_zero.2 (by omega)
  have harg : -(2 * (Real.pi : ℂ) * h / ((2 * h : ℕ) : ℂ)) * Complex.I
      = -((Real.pi : ℂ) * Complex.I) := by
    push_cast
    field_simp
    try ring
  rw [harg, Complex.exp_neg, Complex.exp_pi_mul_I]
  norm_num

lemma bflyAt_eval (w : ℂ) (h i : ℕ) (a : ℕ → ℂ) (j : ℕ) (hh : 1 ≤ h) :
    bflyAt w h i a j =
      if j = i then a i + w * a (i + h)
      else if j = i + h then a i - w * a (i + h)
      else a j := by
  unfold bflyAt
  rw [Function.update_apply, Function.update_apply]

lemma bfly_sanity (w : ℂ) (a : ℕ → ℂ) : bflyAt w 1 0 a 1 = a 0 - w * a 1 := by
  rw [bflyAt_eval w 1 0 a 1 (by omega)]
  norm_num

lemma innerWhile_eval (w : ℂ) (h size : ℕ) (hh : 1 ≤ h) :
    ∀ (fuel i : ℕ) (a : ℕ → ℂ), size ≤ i + 2 * h * fuel →
      (∀ t, i + 2 * h * t < size →
        innerWhile fuel w h size i a (i + 2 * h * t)
          = a (i + 2 * h * t) + w * a (i + 2 * h * t + h)) ∧
      (∀ t, i + 2 * h * t < size →
        innerWhile fuel w h size i a (i + 2 * h * t + h)
          = a (i + 2 * h * t) - w * a (i + 2 * h * t + h)) ∧
      (∀ j, (∀ t, i + 2 * h * t < size → j ≠ i + 2 * h * t ∧ j ≠ i + 2 * h * t + h) →
        innerWhile fuel w h size i a j = a j) := by
  intro fuel
  induction fuel with
  | zero =>
    intro i a hfa
    have hfa0 : size ≤ i := by simpa using hfa
    refine ⟨?_, ?_, ?_⟩
    · intro t ht
      have := Nat.le_add_right i (2 * h * t)
      omega
    · intro t ht
      have := Nat.le_add_right i (2 * h * t)
      omega
    · intro j _
      rfl
  | succ f ih =>
    intro i a hfa
    have hstep : i + 2 * h * (f + 1) = (i + 2 * h) + 2 * h * f := by ring
    by_cases hi : i < size
    · have hfa2 : size ≤ (i + 2 * h) + 2 * h * f := by
        rw [← hstep]
        exact hfa
      have iw : innerWhile (f + 1) w h size i a
          = innerWhile f w h size (i + 2 * h) (bflyAt w h i a) := by
        show (if i < size then _ else a) = _
        rw [if_pos hi]
      obtain ⟨ih1, ih2, ih3⟩ := ih (i + 2 * h) (bflyAt w h i a) hfa2
      refine ⟨?_, ?_, ?_⟩
      · intro t ht
        cases t with
        | zero =>
          simp only [Nat.mul_zero, Nat.add_zero] at ht ⊢
          rw [iw, ih3 i ?_]
          · rw [bflyAt_eval w h i a i hh, if_pos rfl]
          · intro t2 ht2
            have h2t2 := Nat.le_add_right (i + 2 * h) (2 * h * t2)
            constructor <;> omega
        | succ t2 =>
          have hidx : i + 2 * h * (t2 + 1) = (i + 2 * h) + 2 * h * t2 := by ring
          rw [iw, hidx]
          rw [hidx] at ht
          rw [ih1 t2 ht]
          have hb1 : bflyAt w h i a ((i + 2 * h) + 2 * h * t2)
              = a ((i + 2 * h) + 2 * h * t2) := by
            rw [bflyAt_eval w h i a _ hh]
            have := Nat.le_add_right (i + 2 * h) (2 * h * t2)
            rw [if_neg (by omega), if_neg (by omega)]
          have hb2 : bflyAt w h i a ((i + 2 * h) + 2 * h * t2 + h)
              = a ((i + 2 * h) + 2 * h * t2 + h) := by
            rw [bflyAt_eval w h i a _ hh]
            have := Nat.le_add_right (i + 2 * h) (2 * h * t2)
            rw [if_neg (by omega), if_neg (by omega)]
          rw [hb1, hb2]
      · intro t ht
        cases t with
        | zero =>
          simp only [Nat.mul_zero, Nat.add_zero] at ht ⊢
          rw [iw, ih3 (i + h) ?_]
          · rw [bflyAt_eval w h i a (i + h) hh, if_neg (by omega), if_pos rfl]
          · intro t2 ht2
            have h2t2 := Nat.le_add_right (i + 2 * h) (2 * h * t2)
            constructor <;> omega
        | succ t2 =>
          have hidx : i + 2 * h * (t2 + 1) = (i + 2 * h) + 2 * h * t2 := by ring
          rw [iw, hidx]
          rw [hidx] at ht
          rw [ih2 t2 ht]
          have hb1 : bflyAt w h i a ((i + 2 * h) + 2 * h * t2)
              = a ((i + 2 * h) + 2 * h * t2) := by
            rw [bflyAt_eval w h i a _ hh]
            have := Nat.le_add_right (i + 2 * h) (2 * h * t2)
            rw [if_neg (by omega), if_neg (by omega)]
          have hb2 : bflyAt w h i a ((i + 2 * h) + 2 * h * t2 + h)
              = a ((i + 2 * h) + 2 * h * t2 + h) := by
            rw [bflyAt_eval w h i a _ hh]
            have := Nat.le_add_right (i + 2 * h) (2 * h * t2)
            rw [if_neg (by omega), if_neg (by omega)]
          rw [hb1, hb2]
      · intro j hj
        rw [iw, ih3 j ?_]
        · rw [bflyAt_eval w h i a j hh]
          obtain ⟨hj1, hj2⟩ := hj 0 (by simpa using hi)
          simp only [Nat.mul_zero, Nat.add_zero] at hj1 hj2
          rw [if_neg hj1, if_neg hj2]
        · intro t2 ht2
          have hidx : (i + 2 * h) + 2 * h * t2 = i + 2 * h * (t2 + 1) := by ring
          rw [hidx]
          rw [hidx] at ht2
          exact hj (t2 + 1) ht2
    · have iw : innerWhile (f + 1) w h size i a = a := by
        show (if i < size then _ else a) = a
        rw [if_neg hi]
      refine ⟨?_, ?_, ?_⟩
      · intro t ht
        have := Nat.le_add_right i (2 * h * t)
        omega
      · intro t ht
        have := Nat.le_add_right i (2 * h * t)
        omega
      · intro j _
        rw [iw]

/-! ### The transform computes the DFT: one stage -/

lemma qr_mod (q r b : ℕ) (hr : r < b) : (q * b + r) % b = r := by
  have he : q * b + r = r + b * q := by ring
  rw [he, Nat.add_mul_mod_self_left, Nat.mod_eq_of_lt hr]

lemma block_bound (h size q r : ℕ) (hdvd : 2 * h ∣ size)
    (hqr : q * (2 * h) + r < size) : q * (2 * h) + 2 * h ≤ size := by
  obtain ⟨M, hM⟩ := hdvd
  subst hM
  have h1 : q * (2 * h) < M * (2 * h) := by
    have h2 : q * (2 * h) ≤ q * (2 * h) + r := by omega
    have h3 : 2 * h * M = M * (2 * h) := by ring
    omega
  have hq : q < M := Nat.lt_of_mul_lt_mul_right h1
  have h4 : (q + 1) * (2 * h) ≤ M * (2 * h) := Nat.mul_le_mul_right _ hq
  have h5 : (q + 1) * (2 * h) = q * (2 * h) + 2 * h := by ring
  have h6 : 2 * h * M = M * (2 * h) := by ring
  omega

lemma stageFold_eval (h size : ℕ) (hh : 1 ≤ h) (hdvd : 2 * h ∣ size)
    (w : ℂ) (a : ℕ → ℂ) :
    ∀ k0, k0 ≤ h →
      ((List.range k0).foldl
        (fun (p : (ℕ → ℂ) × ℂ) k2 => (innerWhile size p.2 h size k2 p.1, p.2 * w))
        (a, 1)).2 = w ^ k0 ∧
      (∀ q r, r < 2 * h → q * (2 * h) + r < size →
        ((List.range k0).foldl
          (fun (p : (ℕ → ℂ) × ℂ) k2 => (innerWhile size p.2 h size k2 p.1, p.2 * w))
          (a, 1)).1 (q * (2 * h) + r) =
          if r < k0 then a (q * (2 * h) + r) + w ^ r * a (q * (2 * h) + r + h)
          else if h ≤ r ∧ r < h + k0 then
            a (q * (2 * h) + r - h) - w ^ (r - h) * a (q * (2 * h) + r)
          else a (q * (2 * h) + r)) := by
  intro k0
  induction k0 with
  | zero =>
    intro _
    refine ⟨by simp, ?_⟩
    intro q r hr hqr
    rw [if_neg (by omega), if_neg (by omega)]
    rfl
  | succ k0 ih =>
    intro hk0
    obtain ⟨ihc, ihf⟩ := ih (by omega)
    rw [List.range_succ, List.foldl_append, List.foldl_cons, List.foldl_nil]
    constructor
    · show _ * w = w ^ (k0 + 1)
      rw [ihc, pow_succ]
    · intro q r hr hqr
      simp only [ihc]
      have hqc : q * (2 * h) = 2 * h * q := by ring
      have hbound : size ≤ k0 + 2 * h * size := by
        rcases Nat.eq_zero_or_pos size with hsz | hsz
        · omega
        · have hx : size ≤ 2 * h * size := Nat.le_mul_of_pos_left size (by omega)
          omega
      obtain ⟨iw1, iw2, iw3⟩ :=
        innerWhile_eval (w ^ k0) h size hh size k0
          ((List.range k0).foldl
            (fun (p : (ℕ → ℂ) × ℂ) k2 => (innerWhile size p.2 h size k2 p.1, p.2 * w))
            (a, 1)).1 hbound
      have hblock : q * (2 * h) + 2 * h ≤ size := block_bound h size q r hdvd hqr
      by_cases hc1 : r = k0
      · subst hc1
        rw [show q * (2 * h) + r = r + 2 * h * q from by ring, iw1 q (by omega)]
        rw [show r + 2 * h * q = q * (2 * h) + r from by ring]
        rw [ihf q r hr hqr]
        rw [if_neg (show ¬ r < r from by omega),
          if_neg (show ¬(h ≤ r ∧ r < h + r) from by omega)]
        rw [show q * (2 * h) + r + h = q * (2 * h) + (r + h) from by ring]
        rw [ihf q (r + h) (by omega) (by omega)]
        rw [if_neg (show ¬ r + h < r from by omega),
          if_neg (show ¬(h ≤ r + h ∧ r + h < h + r) from by omega)]
        rw [show q * (2 * h) + (r + h) = q * (2 * h) + r + h from by ring]
        rw [if_pos (show r < r + 1 from by omega)]
      · by_cases hc2 : r = k0 + h
        · subst hc2
          rw [show q * (2 * h) + (k0 + h) = (k0 + 2 * h * q) + h from by ring,
            iw2 q (by omega)]
          rw [show k0 + 2 * h * q = q * (2 * h) + k0 from by ring]
          rw [ihf q k0 (by omega) (by omega)]
          rw [if_neg (show ¬ k0 < k0 from by omega),
            if_neg (show ¬(h ≤ k0 ∧ k0 < h + k0) from by omega)]
          rw [show q * (2 * h) + k0 + h = q * (2 * h) + (k0 + h) from by ring]
          rw [ihf q (k0 + h) (by omega) (by omega)]
          rw [if_neg (show ¬ k0 + h < k0 from by omega),
            if_neg (show ¬(h ≤ k0 + h ∧ k0 + h < h + k0) from by omega)]
          rw [if_neg (show ¬ k0 + h < k0 + 1 from by omega),
            if_pos (show h ≤ k0 + h ∧ k0 + h < h + (k0 + 1) from by omega)]
          rw [show q * (2 * h) + (k0 + h) - h = q * (2 * h) + k0 from by omega,
            show k0 + h - h = k0 from by omega,
            show q * (2 * h) + (k0 + h) = q * (2 * h) + k0 + h from by ring]
        · have hjm : (q * (2 * h) + r) % (2 * h) = r := qr_mod q r (2 * h) hr
          rw [iw3 (q * (2 * h) + r) ?side]
          case side =>
            intro t ht
            have h1m : (k0 + 2 * h * t) % (2 * h) = k0 := by
              rw [show k0 + 2 * h * t = t * (2 * h) + k0 from by ring]
              exact qr_mod t k0 (2 * h) (by omega)
            have h2m : (k0 + 2 * h * t + h) % (2 * h) = k0 + h := by
              rw [show k0 + 2 * h * t + h = t * (2 * h) + (k0 + h) from by ring]
              exact qr_mod t (k0 + h) (2 * h) (by omega)
            constructor
            · intro heq
              apply hc1
              rw [← hjm, heq, h1m]
            · intro heq
              apply hc2
              rw [← hjm, heq, h2m]
          rw [ihf q r hr hqr]
          by_cases hr1 : r < k0
          · rw [if_pos hr1, if_pos (show r < k0 + 1 from by omega)]
          · rw [if_neg hr1]
            by_cases hr2 : h ≤ r ∧ r < h + k0
            · rw [if_pos hr2, if_neg (show ¬ r < k0 + 1 from by omega),
                if_pos (show h ≤ r ∧ r < h + (k0 + 1) from by omega)]
            · rw [if_neg hr2,
                if_neg (show ¬ r < k0 + 1 from by omega),
                if_neg (show ¬(h ≤ r ∧ r < h + (k0 + 1)) from by omega)]

lemma stageLoop_eval (h size : ℕ) (hh : 1 ≤ h) (hdvd : 2 * h ∣ size)
    (w : ℂ) (a : ℕ → ℂ) (q r : ℕ) (hr : r < h)
    (hqr : q * (2 * h) + r < size) :
    stageLoop h size w a (q * (2 * h) + r)
      = a (q * (2 * h) + r) + w ^ r * a (q * (2 * h) + r + h) ∧
    stageLoop h size w a (q * (2 * h) + r + h)
      = a (q * (2 * h) + r) - w ^ r * a (q * (2 * h) + r + h) := by
  have hs := (stageFold_eval h size hh hdvd w a h (le_refl h)).2
  have hblock : q * (2 * h) + 2 * h ≤ size := block_bound h size q r hdvd hqr
  constructor
  · show ((List.range h).foldl _ (a, 1)).1 _ = _
    rw [hs q r (by omega) hqr, if_pos hr]
  · show ((List.range h).foldl _ (a, 1)).1 _ = _
    rw [show q * (2 * h) + r + h = q * (2 * h) + (r + h) from by ring]
    rw [hs q (r + h) (by omega) (by omega)]
    rw [if_neg (by omega), if_pos (show h ≤ r + h ∧ r + h < h + h by omega)]
    rw [show q * (2 * h) + (r + h) - h = q * (2 * h) + r from by omega,
      show r + h - h = r from by omega,
      show q * (2 * h) + (r + h) = q * (2 * h) + r + h from by ring]

/-! ### The transform computes the DFT: decimation in time -/

lemma sum_range_even_odd {β : Type} [AddCommMonoid β] (n : ℕ) (f : ℕ → β) :
    ∑ u in Finset.range (2 * n), f u
      = ∑ t in Finset.range n, f (2 * t) + ∑ t in Finset.range n, f (2 * t + 1) := by
  induction n with
  | zero => simp
  | succ n2 ih =>
    have h1 : 2 * (n2 + 1) = (2 * n2 + 1) + 1 := by ring
    rw [h1, Finset.sum_range_succ, Finset.sum_range_succ, ih,
      Finset.sum_range_succ, Finset.sum_range_succ]
    abel

lemma W_pow_reduce (s d t : ℕ) :
    W (2 ^ s) ^ ((d + 2 ^ s) * t) = W (2 ^ s) ^ (d * t) := by
  rw [show (d + 2 ^ s) * t = d * t + 2 ^ s * t from by ring, pow_add,
    pow_mul (W (2 ^ s)) (2 ^ s) t, W_pow_self (2 ^ s) Nat.one_le_two_pow,
    one_pow, mul_one]

lemma W_pow_shift (s d : ℕ) :
    W (2 ^ (s + 1)) ^ (d + 2 ^ s) = -(W (2 ^ (s + 1)) ^ d) := by
  rw [pow_add]
  rw [show (2 : ℕ) ^ (s + 1) = 2 * 2 ^ s from by rw [pow_succ]; ring]
  rw [W_pow_half (2 ^ s) Nat.one_le_two_pow]
  ring

lemma dit_split (s k : ℕ) (y : ℕ → ℂ) (bR r2 : ℕ) :
    ∑ u in Finset.range (2 ^ (s + 1)), y (u * 2 ^ k + bR) * W (2 ^ (s + 1)) ^ (r2 * u)
      = (∑ t in Finset.range (2 ^ s), y (t * 2 ^ (k + 1) + bR) * W (2 ^ s) ^ (r2 * t))
        + W (2 ^ (s + 1)) ^ r2 *
          ∑ t in Finset.range (2 ^ s),
            y (t * 2 ^ (k + 1) + (bR + 2 ^ k)) * W (2 ^ s) ^ (r2 * t) := by
  have h2 : (2 : ℕ) ^ (s + 1) = 2 * 2 ^ s := by rw [pow_succ]; ring
  rw [h2, sum_range_even_odd]
  congr 1
  · apply Finset.sum_congr rfl
    intro t _
    have hidx : 2 * t * 2 ^ k + bR = t * 2 ^ (k + 1) + bR := by
      rw [pow_succ]
      ring
    rw [hidx]
    have hw : W (2 * 2 ^ s) ^ (r2 * (2 * t)) = W (2 ^ s) ^ (r2 * t) := by
      rw [show r2 * (2 * t) = 2 * (r2 * t) from by ring, pow_mul,
        show W (2 * 2 ^ s) ^ 2 = W (2 ^ s) from W_sq (2 ^ s) Nat.one_le_two_pow]
    rw [hw]
  · rw [Finset.mul_sum]
    apply Finset.sum_congr rfl
    intro t _
    have hidx : (2 * t + 1) * 2 ^ k + bR = t * 2 ^ (k + 1) + (bR + 2 ^ k) := by
      rw [pow_succ]
      ring
    rw [hidx]
    have hw : W (2 * 2 ^ s) ^ (r2 * (2 * t + 1))
        = W (2 ^ s) ^ (r2 * t) * W (2 * 2 ^ s) ^ r2 := by
      rw [show r2 * (2 * t + 1) = 2 * (r2 * t) + r2 from by ring, pow_add, pow_mul,
        show W (2 * 2 ^ s) ^ 2 = W (2 ^ s) from W_sq (2 ^ s) Nat.one_le_two_pow]
    rw [hw]
    ring

lemma stagesLoop_succ (f h size : ℕ) (ct st : List ℝ) (a : ℕ → ℂ) :
    stagesLoop (f + 1) h size ct st a =
      if h < size then
        stagesLoop f (2 * h) size ct st
          (stageLoop h size ⟨ct.getD h 0, st.getD h 0⟩ a)
      else a := rfl

lemma stages_dft (m : ℕ) (y : ℕ → ℂ) :
    ∀ (fuel s : ℕ) (a : ℕ → ℂ), s ≤ m → m - s ≤ fuel →
      (∀ q r, q < 2 ^ (m - s) → r < 2 ^ s →
        a (q * 2 ^ s + r) = ∑ tt in Finset.range (2 ^ s),
          y (tt * 2 ^ (m - s) + bitRev (m - s) q) * W (2 ^ s) ^ (r * tt)) →
      ∀ j, j < 2 ^ m →
        stagesLoop fuel (2 ^ s) (2 ^ m) (theTables (2 ^ m)).cosTable
          (theTables (2 ^ m)).sinTable a j
          = ∑ tt in Finset.range (2 ^ m), y tt * W (2 ^ m) ^ (j * tt) := by
  intro fuel
  induction fuel with
  | zero =>
    intro s a hsm hfuel hP j hj
    have hse : s = m := by omega
    subst hse
    show a j = _
    have h0 := hP 0 j (by simpa using Nat.one_pos) hj
    rw [show (0 : ℕ) * 2 ^ s + j = j from by ring] at h0
    rw [h0]
    apply Finset.sum_congr rfl
    intro t _
    rw [Nat.sub_self, bitRev_zero, pow_zero]
    rw [show t * 1 + 0 = t from by ring]
  | succ f ih =>
    intro s a hsm hfuel hP j hj
    by_cases hlt : s < m
    · have hpow : (2 : ℕ) ^ s < 2 ^ m := Nat.pow_lt_pow_right (by omega) hlt
      rw [stagesLoop_succ, if_pos hpow]
      have h2s : (2 : ℕ) * 2 ^ s = 2 ^ (s + 1) := by rw [pow_succ]; ring
      have hstep : (⟨(theTables (2 ^ m)).cosTable.getD (2 ^ s) 0,
          (theTables (2 ^ m)).sinTable.getD (2 ^ s) 0⟩ : ℂ) = W (2 ^ (s + 1)) := by
        rw [table_step_eq_W (2 ^ m) (2 ^ s) Nat.one_le_two_pow hpow, h2s]
      rw [h2s, hstep]
      have hdvd : 2 * 2 ^ s ∣ 2 ^ m := by
        rw [h2s]
        exact pow_dvd_pow 2 (by omega)
      set k := m - (s + 1) with hk
      have hms : m - s = k + 1 := by omega
      refine ih (s + 1) _ (by omega) (by omega) ?_ j hj
      intro q2 r2 hq2 hr2
      have hq2k : q2 < 2 ^ k := by
        rw [hk]
        exact hq2
      have hq2m : 2 * q2 < 2 ^ (m - s) ∧ 2 * q2 + 1 < 2 ^ (m - s) := by
        rw [hms, pow_succ]
        omega
      have hblocklt : q2 * (2 * 2 ^ s) + r2 < 2 ^ m := by
        have h1 : q2 + 1 ≤ 2 ^ k := hq2k
        have h2 : (q2 + 1) * (2 ^ (s + 1)) ≤ 2 ^ k * 2 ^ (s + 1) :=
          Nat.mul_le_mul_right _ h1
        have h3 : (2 : ℕ) ^ k * 2 ^ (s + 1) = 2 ^ m := by
          rw [← pow_add]
          congr 1
          omega
        have h4 : (q2 + 1) * 2 ^ (s + 1) = q2 * 2 ^ (s + 1) + 2 ^ (s + 1) := by ring
        rw [h2s]
        omega
      have hPe : ∀ r4, r4 < 2 ^ s → a ((2 * q2) * 2 ^ s + r4)
          = ∑ tt in Finset.range (2 ^ s),
            y (tt * 2 ^ (k + 1) + bitRev k q2) * W (2 ^ s) ^ (r4 * tt) := by
        intro r4 hr4
        have hx := hP (2 * q2) r4 hq2m.1 hr4
        rw [hms] at hx
        rw [bitRev_even k q2] at hx
        exact hx
      have hPo : ∀ r4, r4 < 2 ^ s → a ((2 * q2 + 1) * 2 ^ s + r4)
          = ∑ tt in Finset.range (2 ^ s),
            y (tt * 2 ^ (k + 1) + (bitRev k q2 + 2 ^ k)) * W (2 ^ s) ^ (r4 * tt) := by
        intro r4 hr4
        have hx := hP (2 * q2 + 1) r4 hq2m.2 hr4
        rw [hms] at hx
        rw [bitRev_odd k q2] at hx
        exact hx
      by_cases hr2s : r2 < 2 ^ s
      · have hse := stageLoop_eval (2 ^ s) (2 ^ m) Nat.one_le_two_pow hdvd
          (W (2 ^ (s + 1))) a q2 r2 hr2s hblocklt
        rw [show q2 * 2 ^ (s + 1) + r2 = q2 * (2 * 2 ^ s) + r2 from by rw [h2s]]
        rw [hse.1]
        rw [show q2 * (2 * 2 ^ s) + r2 = (2 * q2) * 2 ^ s + r2 from by ring]
        rw [hPe r2 hr2s]
        rw [show (2 * q2) * 2 ^ s + r2 + 2 ^ s = (2 * q2 + 1) * 2 ^ s + r2 from by ring]
        rw [hPo r2 hr2s]
        rw [dit_split s k y (bitRev k q2) r2]
      · obtain ⟨r3, rfl⟩ : ∃ r3, r2 = r3 + 2 ^ s := ⟨r2 - 2 ^ s, by omega⟩
        have hr3 : r3 < 2 ^ s := by
          rw [pow_succ] at hr2
          omega
        have hse := stageLoop_eval (2 ^ s) (2 ^ m) Nat.one_le_two_pow hdvd
          (W (2 ^ (s + 1))) a q2 r3 hr3 (by omega)
        rw [show q2 * 2 ^ (s + 1) + (r3 + 2 ^ s)
            = q2 * (2 * 2 ^ s) + r3 + 2 ^ s from by rw [h2s]; ring]
        rw [hse.2]
        rw [show q2 * (2 * 2 ^ s) + r3 = (2 * q2) * 2 ^ s + r3 from by ring]
        rw [hPe r3 hr3]
        rw [show (2 * q2) * 2 ^ s + r3 + 2 ^ s = (2 * q2 + 1) * 2 ^ s + r3 from by ring]
        rw [hPo r3 hr3]
        rw [dit_split s k y (bitRev k q2) (r3 + 2 ^ s)]
        have hred : ∀ bb : ℕ, ∑ t in Finset.range (2 ^ s),
            y (t * 2 ^ (k + 1) + bb) * W (2 ^ s) ^ ((r3 + 2 ^ s) * t)
            = ∑ t in Finset.range (2 ^ s),
              y (t * 2 ^ (k + 1) + bb) * W (2 ^ s) ^ (r3 * t) := by
          intro bb
          apply Finset.sum_congr rfl
          intro t _
          rw [W_pow_reduce s r3 t]
        rw [hred (bitRev k q2), hred (bitRev k q2 + 2 ^ k), W_pow_shift s r3]
        ring
    · have hse : s = m := by omega
      subst hse
      rw [stagesLoop_succ, if_neg (lt_irrefl _)]
      have h0 := hP 0 j (by simpa using Nat.one_pos) hj
      rw [show (0 : ℕ) * 2 ^ s + j = j from by ring] at h0
      rw [h0]
      apply Finset.sum_congr rfl
      intro t _
      rw [Nat.sub_self, bitRev_zero, pow_zero]
      rw [show t * 1 + 0 = t from by ring]

/-! ### Assembling the full transform as the DFT -/

lemma zeros_getD (n i : ℕ) : (zeros n).getD i 0 = 0 := by
  unfold zeros
  rw [List.getD_eq_getElem?_getD, List.getElem?_replicate]
  by_cases h : i < n
  · rw [if_pos h]
    rfl
  · rw [if_neg h]
    rfl

lemma processJs_ok (dir : ℤ) (t : Tables) (inp : CFrame)
    (h1 : inp.real.length = t.size) (h2 : inp.imag.length = t.size) :
    processJs dir t inp = .ok (processRun dir t inp) := by
  unfold processJs
  rw [if_neg (by omega), if_neg (by omega)]

lemma loadPerm_invariant (m : ℕ) (dir : ℤ) (rs ims : List ℝ) :
    ∀ q r, q < 2 ^ (m - 0) → r < 2 ^ 0 →
      loadPerm dir (theTables (2 ^ m)).reverseTable (2 ^ m) rs ims (q * 2 ^ 0 + r)
        = ∑ tt in Finset.range (2 ^ 0),
            (fun n => (⟨rs.getD n 0, (dir : ℝ) * ims.getD n 0⟩ : ℂ))
              (tt * 2 ^ (m - 0) + bitRev (m - 0) q) * W (2 ^ 0) ^ (r * tt) := by
  intro q r hq hr
  simp only [Nat.sub_zero, pow_zero] at hq hr ⊢
  have hr0 : r = 0 := by omega
  subst hr0
  rw [Finset.sum_range_one]
  rw [show q * 1 + 0 = q from by ring]
  rw [loadPerm_eval, if_pos hq]
  rw [show (theTables (2 ^ m)).reverseTable = reverseTableList (2 ^ m) from rfl]
  rw [reverseTableList_getD m q hq]
  rw [show (0 : ℕ) * 2 ^ m + bitRev m q = bitRev m q from by ring]
  rw [show (0 : ℕ) * 0 = 0 from rfl, pow_zero, mul_one]

lemma stagesLoop_dftSum (m : ℕ) (dir : ℤ) (rs ims : List ℝ) (j : ℕ) (hj : j < 2 ^ m) :
    stagesLoop (2 ^ m) 1 (2 ^ m) (theTables (2 ^ m)).cosTable (theTables (2 ^ m)).sinTable
        (loadPerm dir (theTables (2 ^ m)).reverseTable (2 ^ m) rs ims) j
      = dftSum (2 ^ m) (fun n => ⟨rs.getD n 0, (dir : ℝ) * ims.getD n 0⟩) j :=
  stages_dft m (fun n => ⟨rs.getD n 0, (dir : ℝ) * ims.getD n 0⟩) (2 ^ m) 0
    (loadPerm dir (theTables (2 ^ m)).reverseTable (2 ^ m) rs ims)
    (Nat.zero_le m) (by have := Nat.lt_two_pow m; omega)
    (loadPerm_invariant m dir rs ims) j hj

lemma processRun_real_getD (m : ℕ) (dir : ℤ) (inp : CFrame) (j : ℕ) (hj : j < 2 ^ m) :
    (processRun dir (theTables (2 ^ m)) inp).real.getD j 0
      = (if dir = -1 then
           dftSum (2 ^ m) (fun n => ⟨inp.real.getD n 0, (dir : ℝ) * inp.imag.getD n 0⟩) j
             / ((2 ^ m : ℕ) : ℂ)
         else
           dftSum (2 ^ m) (fun n => ⟨inp.real.getD n 0, (dir : ℝ) * inp.imag.getD n 0⟩) j).re := by
  have hre : (processRun dir (theTables (2 ^ m)) inp).real
      = (List.range (2 ^ m)).map (fun i =>
          ((if dir = -1 then
              fun j2 => stagesLoop (2 ^ m) 1 (2 ^ m) (theTables (2 ^ m)).cosTable
                (theTables (2 ^ m)).sinTable
                (loadPerm dir (theTables (2 ^ m)).reverseTable (2 ^ m) inp.real inp.imag) j2
                / ((2 ^ m : ℕ) : ℂ)
            else
              stagesLoop (2 ^ m) 1 (2 ^ m) (theTables (2 ^ m)).cosTable
                (theTables (2 ^ m)).sinTable
                (loadPerm dir (theTables (2 ^ m)).reverseTable (2 ^ m) inp.real inp.imag)) i).re)
      := rfl
  rw [hre, getD_map_range, if_pos hj]
  by_cases hdir : dir = -1
  · simp only [if_pos hdir]
    rw [stagesLoop_dftSum m dir inp.real inp.imag j hj]
  · simp only [if_neg hdir]
    rw [stagesLoop_dftSum m dir inp.real inp.imag j hj]

lemma processRun_imag_getD (m : ℕ) (dir : ℤ) (inp : CFrame) (j : ℕ) (hj : j < 2 ^ m) :
    (processRun dir (theTables (2 ^ m)) inp).imag.getD j 0
      = (if dir = -1 then
           dftSum (2 ^ m) (fun n => ⟨inp.real.getD n 0, (dir : ℝ) * inp.imag.getD n 0⟩) j
             / ((2 ^ m : ℕ) : ℂ)
         else
           dftSum (2 ^ m) (fun n => ⟨inp.real.getD n 0, (dir : ℝ) * inp.imag.getD n 0⟩) j).im := by
  have him : (processRun dir (theTables (2 ^ m)) inp).imag
      = (List.range (2 ^ m)).map (fun i =>
          ((if dir = -1 then
              fun j2 => stagesLoop (2 ^ m) 1 (2 ^ m) (theTables (2 ^ m)).cosTable
                (theTables (2 ^ m)).sinTable
                (loadPerm dir (theTables (2 ^ m)).reverseTable (2 ^ m) inp.real inp.imag) j2
                / ((2 ^ m : ℕ) : ℂ)
            else
              stagesLoop (2 ^ m) 1 (2 ^ m) (theTables (2 ^ m)).cosTable
                (theTables (2 ^ m)).sinTable
                (loadPerm dir (theTables (2 ^ m)).reverseTable (2 ^ m) inp.real inp.imag)) i).im)
      := rfl
  rw [him, getD_map_range, if_pos hj]
  by_cases hdir : dir = -1
  · simp only [if_pos hdir]
    rw [stagesLoop_dftSum m dir inp.real inp.imag j hj]
  · simp only [if_neg hdir]
    rw [stagesLoop_dftSum m dir inp.real inp.imag j hj]

/-! ### Orthogonality of the twiddle factors and DFT inversion -/

lemma W_ne_zero (n : ℕ) : W n ≠ 0 := by
  unfold W
  exact Complex.exp_ne_zero _

lemma conj_W (n : ℕ) : (starRingEnd ℂ) (W n) = (W n)⁻¹ := by
  unfold W
  rw [← Complex.exp_conj, ← Complex.exp_neg]
  congr 1
  simp [map_mul, map_neg, map_div₀, map_ofNat, Complex.conj_I]

lemma W_primitive (n : ℕ) (hn : n ≠ 0) : IsPrimitiveRoot (W n) n := by
  have h := Complex.isPrimitiveRoot_exp n hn
  have hWinv : W n = (Complex.exp (2 * Real.pi * Complex.I / n))⁻¹ := by
    rw [← Complex.exp_neg]
    unfold W
    congr 1
    ring
  rw [hWinv]
  exact h.inv

lemma dft_orth (N u j : ℕ) (hN : 1 ≤ N) (hu : u < N) (hj : j < N) :
    ∑ t in Finset.range N, (starRingEnd ℂ) (W N) ^ (t * u) * W N ^ (j * t)
      = if u = j then (N : ℂ) else 0 := by
  have hprim : IsPrimitiveRoot (W N) N := W_primitive N (by omega)
  have hsum : ∑ t in Finset.range N, (starRingEnd ℂ) (W N) ^ (t * u) * W N ^ (j * t)
      = ∑ t in Finset.range N, ((starRingEnd ℂ) (W N) ^ u * W N ^ j) ^ t := by
    apply Finset.sum_congr rfl
    intro t _
    rw [mul_comm t u, pow_mul, pow_mul, ← mul_pow]
  rw [hsum]
  by_cases huj : u = j
  · subst huj
    have hz1 : (starRingEnd ℂ) (W N) ^ u * W N ^ u = 1 := by
      rw [conj_W, inv_pow, inv_mul_cancel₀ (pow_ne_zero u (W_ne_zero N))]
    rw [if_pos rfl]
    calc ∑ t in Finset.range N, ((starRingEnd ℂ) (W N) ^ u * W N ^ u) ^ t
        = ∑ t in Finset.range N, (1 : ℂ) := by
          apply Finset.sum_congr rfl
          intro t _
          rw [hz1, one_pow]
      _ = (N : ℂ) := by rw [Finset.sum_const, Finset.card_range, nsmul_eq_mul, mul_one]
  · rw [if_neg huj]
    have hz1 : (starRingEnd ℂ) (W N) ^ u * W N ^ j ≠ 1 := by
      intro hz
      apply huj
      rw [conj_W, inv_pow] at hz
      exact hprim.pow_inj hu hj ((inv_mul_eq_one₀ (pow_ne_zero u (W_ne_zero N))).mp hz)
    have hzN : ((starRingEnd ℂ) (W N) ^ u * W N ^ j) ^ N = 1 := by
      rw [mul_pow, ← pow_mul, ← pow_mul, mul_comm u N, mul_comm j N,
        pow_mul, pow_mul, ← map_pow, W_pow_self N hN, map_one, one_pow, one_pow, one_mul]
    rw [geom_sum_eq hz1 N, hzN, sub_self, zero_div]

lemma dft_double (N : ℕ) (hN : 1 ≤ N) (y z : ℕ → ℂ)
    (hz : ∀ n, n < N → z n = (starRingEnd ℂ) (dftSum N y n)) (j : ℕ) (hj : j < N) :
    dftSum N z j = (N : ℂ) * (starRingEnd ℂ) (y j) := by
  unfold dftSum
  have h1 : ∑ t in Finset.range N, z t * W N ^ (j * t)
      = ∑ t in Finset.range N, ∑ u in Finset.range N,
          (starRingEnd ℂ) (y u) * ((starRingEnd ℂ) (W N) ^ (t * u) * W N ^ (j * t)) := by
    apply Finset.sum_congr rfl
    intro t ht
    rw [hz t (Finset.mem_range.mp ht)]
    unfold dftSum
    rw [map_sum, Finset.sum_mul]
    apply Finset.sum_congr rfl
    intro u _
    rw [map_mul, map_pow]
    ring
  rw [h1, Finset.sum_comm]
  have h2 : ∀ u ∈ Finset.range N,
      ∑ t in Finset.range N, (starRingEnd ℂ) (y u) *
        ((starRingEnd ℂ) (W N) ^ (t * u) * W N ^ (j * t))
      = (starRingEnd ℂ) (y u) * (if u = j then (N : ℂ) else 0) := by
    intro u hu
    rw [← Finset.mul_sum, dft_orth N u j hN (Finset.mem_range.mp hu) hj]
  rw [Finset.sum_congr rfl h2]
  rw [Finset.sum_eq_single j]
  · rw [if_pos rfl]
    ring
  · intro b _ hb
    rw [if_neg hb, mul_zero]
  · intro hjN
    exact absurd (Finset.mem_range.mpr hj) hjN

/-- C2: the transform pair returned by `fft (2 ^ m)` satisfies the exact
round-trip property in this real-arithmetic model: for every real input
signal `x` of length `2 ^ m`, `inverse (forward (x))` succeeds and its
real part is exactly `x` (the floating-point claim's tolerance collapses
to equality over the reals). -/
theorem fft_round_trip (m : ℕ) (x : List ℝ) (hx : x.length = 2 ^ m) :
    ((forwardSig (theTables (2 ^ m)) x).bind
        (fun X => inverseJs (theTables (2 ^ m)) X)).map CFrame.real
      = .ok x := by
  have hfwd : forwardSig (theTables (2 ^ m)) x
      = .ok (processRun 1 (theTables (2 ^ m)) ⟨x, zeros (2 ^ m)⟩) :=
    processJs_ok 1 (theTables (2 ^ m)) ⟨x, zeros (2 ^ m)⟩ hx
      (by show (zeros (2 ^ m)).length = 2 ^ m; simp [zeros])
  rw [hfwd]
  have hinv : inverseJs (theTables (2 ^ m))
        (processRun 1 (theTables (2 ^ m)) ⟨x, zeros (2 ^ m)⟩)
      = .ok (processRun (-1) (theTables (2 ^ m))
          (processRun 1 (theTables (2 ^ m)) ⟨x, zeros (2 ^ m)⟩)) :=
    processJs_ok (-1) (theTables (2 ^ m)) _
      (processRun_real_length 1 _ _) (processRun_imag_length 1 _ _)
  show (inverseJs (theTables (2 ^ m))
      (processRun 1 (theTables (2 ^ m)) ⟨x, zeros (2 ^ m)⟩)).map CFrame.real = .ok x
  rw [hinv]
  show Except.ok (processRun (-1) (theTables (2 ^ m))
      (processRun 1 (theTables (2 ^ m)) ⟨x, zeros (2 ^ m)⟩)).real = Except.ok x
  congr 1
  have hXre : ∀ n, n < 2 ^ m →
      (processRun 1 (theTables (2 ^ m)) ⟨x, zeros (2 ^ m)⟩).real.getD n 0
        = (dftSum (2 ^ m) (fun k : ℕ => (⟨x.getD k 0, 0⟩ : ℂ)) n).re := by
    intro n hn
    have h := processRun_real_getD m 1 ⟨x, zeros (2 ^ m)⟩ n hn
    rw [if_neg (by decide)] at h
    have hfun : (fun k : ℕ => (⟨(⟨x, zeros (2 ^ m)⟩ : CFrame).real.getD k 0,
        ((1 : ℤ) : ℝ) * (⟨x, zeros (2 ^ m)⟩ : CFrame).imag.getD k 0⟩ : ℂ))
        = (fun k : ℕ => (⟨x.getD k 0, 0⟩ : ℂ)) := by
      funext k
      apply Complex.ext
      · rfl
      · show ((1 : ℤ) : ℝ) * (zeros (2 ^ m)).getD k 0 = (0 : ℝ)
        rw [zeros_getD, mul_zero]
    rw [h, hfun]
  have hXim : ∀ n, n < 2 ^ m →
      (processRun 1 (theTables (2 ^ m)) ⟨x, zeros (2 ^ m)⟩).imag.getD n 0
        = (dftSum (2 ^ m) (fun k : ℕ => (⟨x.getD k 0, 0⟩ : ℂ)) n).im := by
    intro n hn
    have h := processRun_imag_getD m 1 ⟨x, zeros (2 ^ m)⟩ n hn
    rw [if_neg (by decide)] at h
    have hfun : (fun k : ℕ => (⟨(⟨x, zeros (2 ^ m)⟩ : CFrame).real.getD k 0,
        ((1 : ℤ) : ℝ) * (⟨x, zeros (2 ^ m)⟩ : CFrame).imag.getD k 0⟩ : ℂ))
        = (fun k : ℕ => (⟨x.getD k 0, 0⟩ : ℂ)) := by
      funext k
      apply Complex.ext
      · rfl
      · show ((1 : ℤ) : ℝ) * (zeros (2 ^ m)).getD k 0 = (0 : ℝ)
        rw [zeros_getD, mul_zero]
    rw [h, hfun]
  have hcombined : ∀ n, n < 2 ^ m →
      (⟨(processRun 1 (theTables (2 ^ m)) ⟨x, zeros (2 ^ m)⟩).real.getD n 0,
        ((-1 : ℤ) : ℝ) * (processRun 1 (theTables (2 ^ m)) ⟨x, zeros (2 ^ m)⟩).imag.getD n 0⟩
        : ℂ)
        = (starRingEnd ℂ) (dftSum (2 ^ m) (fun k : ℕ => (⟨x.getD k 0, 0⟩ : ℂ)) n) := by
    intro n hn
    apply Complex.ext
    · rw [Complex.conj_re]
      exact hXre n hn
    · rw [Complex.conj_im]
      show ((-1 : ℤ) : ℝ) * (processRun 1 (theTables (2 ^ m)) ⟨x, zeros (2 ^ m)⟩).imag.getD n 0
        = -(dftSum (2 ^ m) (fun k : ℕ => (⟨x.getD k 0, 0⟩ : ℂ)) n).im
      rw [hXim n hn]
      push_cast
      ring
  have hNne : ((2 ^ m : ℕ) : ℂ) ≠ 0 := by
    rw [Ne, Nat.cast_eq_zero]
    exact (Nat.pos_pow_of_pos m (by omega)).ne'
  have hYre : ∀ n, n < 2 ^ m →
      (processRun (-1) (theTables (2 ^ m))
          (processRun 1 (theTables (2 ^ m)) ⟨x, zeros (2 ^ m)⟩)).real.getD n 0
        = x.getD n 0 := by
    intro n hn
    have h := processRun_real_getD m (-1)
      (processRun 1 (theTables (2 ^ m)) ⟨x, zeros (2 ^ m)⟩) n hn
    rw [if_pos rfl] at h
    rw [h]
    have hdd := dft_double (2 ^ m) Nat.one_le_two_pow
      (fun k : ℕ => (⟨x.getD k 0, 0⟩ : ℂ))
      (fun k : ℕ => (⟨(processRun 1 (theTables (2 ^ m)) ⟨x, zeros (2 ^ m)⟩).real.getD k 0,
        ((-1 : ℤ) : ℝ) * (processRun 1 (theTables (2 ^ m)) ⟨x, zeros (2 ^ m)⟩).imag.getD k 0⟩
        : ℂ))
      hcombined n hn
    rw [hdd]
    rw [mul_div_cancel_left₀ _ hNne, Complex.conj_re]
  have hlen2 : (processRun (-1) (theTables (2 ^ m))
      (processRun 1 (theTables (2 ^ m)) ⟨x, zeros (2 ^ m)⟩)).real.length = 2 ^ m :=
    processRun_real_length (-1) _ _
  apply List.ext_getElem (by rw [hlen2, hx])
  intro n h1 h2
  have h3 := hYre n (by rw [hlen2] at h1; exact h1)
  rw [List.getD_eq_getElem?_getD, List.getD_eq_getElem?_getD,
    List.getElem?_eq_getElem h1, List.getElem?_eq_getElem h2] at h3
  exact h3

/-- Witness for C2 at size `2 ^ 0 = 1` on the concrete signal `[5]`. -/
theorem fft_round_trip_witness :
    ((forwardSig (theTables (2 ^ 0)) [(5 : ℝ)]).bind
        (fun X => inverseJs (theTables (2 ^ 0)) X)).map CFrame.real
      = .ok [(5 : ℝ)] :=
  fft_round_trip 0 [(5 : ℝ)] (by rfl)

end Voc
